import Mathlib

/- Verification of the inline image generation extension (src/index.js).

   The embedding models message text as `List Char` and reproduces the
   JavaScript string primitives the source relies on: `indexOf`,
   `substring`, `includes`, `replace` (first occurrence, with `$`
   expansion in the replacement), regex matching for the two fixed
   patterns the source uses, and `JSON.parse`.  External collaborators
   (the generation endpoint, the artifact store, the file existence
   probe) are oracle parameters. -/

namespace IIG

/- Characters that are awkward in literals, by code point. -/

def lbrace : Char := Char.ofNat 123

def rbrace : Char := Char.ofNat 125

def dquote : Char := Char.ofNat 34

def squote : Char := Char.ofNat 39

def bslash : Char := Char.ofNat 92

def btick : Char := Char.ofNat 96

/-- Model of JavaScript `haystack.indexOf(pattern, i)`: index of the first
occurrence of `pat` at position ≥ the start of `cs`, reported as `i` plus
the offset. -/
def subFindFrom (pat : List Char) : List Char → Nat → Option Nat
  | [], i => if pat.isEmpty then some i else none
  | c :: cs, i =>
    if pat.isPrefixOf (c :: cs) then some i else subFindFrom pat cs (i + 1)

/-- Model of JavaScript `haystack.includes(pattern)`. -/
def containsSub (pat cs : List Char) : Bool := (subFindFrom pat cs 0).isSome

/-- Index of the first occurrence of a single character. -/
def indexOfChar (q : Char) : List Char → Option Nat
  | [] => none
  | c :: cs => if c = q then some 0 else (indexOfChar q cs).map (· + 1)

/-- Model of a global regex replace whose pattern is a fixed string and whose
replacement contains no `$`: every non-overlapping occurrence, scanned left to
right, is replaced. -/
def replaceAllSubAux (pat repl : List Char) : Nat → List Char → List Char
  | 0, cs => cs
  | fuel + 1, cs =>
    match cs with
    | [] => []
    | c :: rest =>
      if pat.isPrefixOf (c :: rest) ∧ pat ≠ [] then
        repl ++ replaceAllSubAux pat repl fuel (rest.drop (pat.length - 1))
      else
        c :: replaceAllSubAux pat repl fuel rest

def replaceAllSub (pat repl : List Char) (cs : List Char) : List Char :=
  replaceAllSubAux pat repl (cs.length + 1) cs

/- ===== JSON values and `JSON.parse` ===== -/

/-- JSON values.  Numbers keep their source lexeme: the code only ever
consumes numbers through JavaScript truthiness. -/
inductive Json where
  | null : Json
  | bool (b : Bool) : Json
  | num (lexeme : List Char) : Json
  | str (s : List Char) : Json
  | arr (xs : List Json) : Json
  | obj (fields : List (List Char × Json)) : Json
deriving Repr

mutual

def jsonBEq : Json → Json → Bool
  | .null, .null => true
  | .bool a, .bool b => a = b
  | .num a, .num b => a = b
  | .str a, .str b => a = b
  | .arr a, .arr b => jsonListBEq a b
  | .obj a, .obj b => jsonFieldsBEq a b
  | _, _ => false

def jsonListBEq : List Json → List Json → Bool
  | [], [] => true
  | a :: as, b :: bs => jsonBEq a b && jsonListBEq as bs
  | _, _ => false

def jsonFieldsBEq : List (List Char × Json) → List (List Char × Json) → Bool
  | [], [] => true
  | (k, v) :: as, (k2, v2) :: bs => k = k2 && jsonBEq v v2 && jsonFieldsBEq as bs
  | _, _ => false

end

mutual

theorem jsonBEq_iff : ∀ a b : Json, jsonBEq a b = true ↔ a = b
  | .null, .null => by simp [jsonBEq]
  | .bool a, .bool b => by simp [jsonBEq]
  | .num a, .num b => by simp [jsonBEq]
  | .str a, .str b => by simp [jsonBEq]
  | .arr a, .arr b => by
      simp only [jsonBEq, Json.arr.injEq]
      exact jsonListBEq_iff a b
  | .obj a, .obj b => by
      simp only [jsonBEq, Json.obj.injEq]
      exact jsonFieldsBEq_iff a b
  | .null, .bool _ | .null, .num _ | .null, .str _ | .null, .arr _ | .null, .obj _
  | .bool _, .null | .bool _, .num _ | .bool _, .str _ | .bool _, .arr _ | .bool _, .obj _
  | .num _, .null | .num _, .bool _ | .num _, .str _ | .num _, .arr _ | .num _, .obj _
  | .str _, .null | .str _, .bool _ | .str _, .num _ | .str _, .arr _ | .str _, .obj _
  | .arr _, .null | .arr _, .bool _ | .arr _, .num _ | .arr _, .str _ | .arr _, .obj _
  | .obj _, .null | .obj _, .bool _ | .obj _, .num _ | .obj _, .str _ | .obj _, .arr _ => by
      simp [jsonBEq]

theorem jsonListBEq_iff : ∀ a b : List Json, jsonListBEq a b = true ↔ a = b
  | [], [] => by simp [jsonListBEq]
  | a :: as, b :: bs => by
      simp only [jsonListBEq, Bool.and_eq_true, List.cons.injEq]
      exact and_congr (jsonBEq_iff a b) (jsonListBEq_iff as bs)
  | [], _ :: _ => by simp [jsonListBEq]
  | _ :: _, [] => by simp [jsonListBEq]

theorem jsonFieldsBEq_iff :
    ∀ a b : List (List Char × Json), jsonFieldsBEq a b = true ↔ a = b
  | [], [] => by simp [jsonFieldsBEq]
  | (k, v) :: as, (k2, v2) :: bs => by
      have h1 := jsonBEq_iff v v2
      have h2 := jsonFieldsBEq_iff as bs
      simp only [jsonFieldsBEq, Bool.and_eq_true, List.cons.injEq, decide_eq_true_eq,
        Prod.mk.injEq, h1, h2]
      try tauto
  | [], _ :: _ => by simp [jsonFieldsBEq]
  | _ :: _, [] => by simp [jsonFieldsBEq]

end

instance : DecidableEq Json := fun a b =>
  decidable_of_iff (jsonBEq a b = true) (jsonBEq_iff a b)

/-- JSON whitespace (the four characters `JSON.parse` skips). -/
def jsonWs (c : Char) : Bool :=
  c = ' ' ∨ c = Char.ofNat 9 ∨ c = Char.ofNat 10 ∨ c = Char.ofNat 13

def skipWs (cs : List Char) : List Char := cs.dropWhile jsonWs

def hexDigitVal (c : Char) : Option Nat :=
  if c.isDigit then some (c.toNat - 48)
  else if 'a' ≤ c ∧ c ≤ 'f' then some (c.toNat - 87)
  else if 'A' ≤ c ∧ c ≤ 'F' then some (c.toNat - 55)
  else none

/-- Parse the body of a JSON string (the opening quote already consumed),
returning the decoded content and the remainder after the closing quote.
Mirrors `JSON.parse`: the only escapes are `\" \\ \/ \b \f \n \r \t \uXXXX`,
raw control characters are rejected, and a valid surrogate pair decodes to
one character.  Fuel decreases on every recursive call while at least one
character is consumed, so `parseJsonStringBody` always supplies enough. -/
def parseJsonStringBodyAux : Nat → List Char → Option (List Char × List Char)
  | 0, _ => none
  | fuel + 1, cs =>
  match cs with
  | [] => none
  | c :: rest =>
    if c = dquote then some ([], rest)
    else if c = bslash then
      match rest with
      | [] => none
      | e :: rest2 =>
        if e = dquote ∨ e = bslash ∨ e = '/' then
          (parseJsonStringBodyAux fuel rest2).map (fun r => (e :: r.1, r.2))
        else if e = 'b' then
          (parseJsonStringBodyAux fuel rest2).map (fun r => (Char.ofNat 8 :: r.1, r.2))
        else if e = 'f' then
          (parseJsonStringBodyAux fuel rest2).map (fun r => (Char.ofNat 12 :: r.1, r.2))
        else if e = 'n' then
          (parseJsonStringBodyAux fuel rest2).map (fun r => (Char.ofNat 10 :: r.1, r.2))
        else if e = 'r' then
          (parseJsonStringBodyAux fuel rest2).map (fun r => (Char.ofNat 13 :: r.1, r.2))
        else if e = 't' then
          (parseJsonStringBodyAux fuel rest2).map (fun r => (Char.ofNat 9 :: r.1, r.2))
        else if e = 'u' then
          match rest2 with
          | h1 :: h2 :: h3 :: h4 :: rest3 =>
            match hexDigitVal h1, hexDigitVal h2, hexDigitVal h3, hexDigitVal h4 with
            | some a, some b, some c3, some d =>
              let n := ((a * 16 + b) * 16 + c3) * 16 + d
              if 55296 ≤ n ∧ n ≤ 56319 then
                match rest3 with
                | b1 :: u1 :: g1 :: g2 :: g3 :: g4 :: rest4 =>
                  if b1 = bslash ∧ u1 = 'u' then
                    match hexDigitVal g1, hexDigitVal g2, hexDigitVal g3, hexDigitVal g4 with
                    | some a2, some b2, some c4, some d2 =>
                      let m := ((a2 * 16 + b2) * 16 + c4) * 16 + d2
                      if 56320 ≤ m ∧ m ≤ 57343 then
                        let cp := 65536 + (n - 55296) * 1024 + (m - 56320)
                        (parseJsonStringBodyAux fuel rest4).map (fun r => (Char.ofNat cp :: r.1, r.2))
                      else
                        (parseJsonStringBodyAux fuel rest3).map (fun r => (Char.ofNat n :: r.1, r.2))
                    | _, _, _, _ =>
                      (parseJsonStringBodyAux fuel rest3).map (fun r => (Char.ofNat n :: r.1, r.2))
                  else
                    (parseJsonStringBodyAux fuel rest3).map (fun r => (Char.ofNat n :: r.1, r.2))
                | _ =>
                  (parseJsonStringBodyAux fuel rest3).map (fun r => (Char.ofNat n :: r.1, r.2))
              else
                (parseJsonStringBodyAux fuel rest3).map (fun r => (Char.ofNat n :: r.1, r.2))
            | _, _, _, _ => none
          | _ => none
        else none
    else if c.toNat < 32 then none
    else (parseJsonStringBodyAux fuel rest).map (fun r => (c :: r.1, r.2))

def parseJsonStringBody (cs : List Char) : Option (List Char × List Char) :=
  parseJsonStringBodyAux (cs.length + 1) cs

def digitRunLen (cs : List Char) : Nat := (cs.takeWhile Char.isDigit).length

/-- Parse a JSON number token (longest valid lexeme), returning the lexeme
and the remainder. -/
def parseJsonNum (cs : List Char) : Option (List Char × List Char) :=
  let sgn : Nat := match cs with
    | c :: _ => if c = '-' then 1 else 0
    | [] => 0
  let cs1 := cs.drop sgn
  match cs1 with
  | [] => none
  | c :: _ =>
    if ¬ c.isDigit then none
    else
      let intLen := if c = '0' then 1 else digitRunLen cs1
      let cs2 := cs1.drop intLen
      let fracLen : Nat := match cs2 with
        | p :: r => if p = '.' then (if digitRunLen r = 0 then 0 else 1 + digitRunLen r) else 0
        | [] => 0
      let cs3 := cs2.drop fracLen
      let expLen : Nat := match cs3 with
        | e :: r =>
          if e = 'e' ∨ e = 'E' then
            let sl : Nat := match r with
              | s :: _ => if s = '+' ∨ s = '-' then 1 else 0
              | [] => 0
            if digitRunLen (r.drop sl) = 0 then 0 else 1 + sl + digitRunLen (r.drop sl)
          else 0
        | [] => 0
      let total := sgn + intLen + fracLen + expLen
      some (cs.take total, cs.drop total)

mutual

/-- Fueled model of `JSON.parse` value parsing.  The fuel only bounds
nesting-driven recursion; `jsonParse` supplies enough for any input. -/
def parseJsonVal : Nat → List Char → Option (Json × List Char)
  | 0, _ => none
  | fuel + 1, cs0 =>
    let cs := skipWs cs0
    match cs with
    | [] => none
    | c :: rest =>
      if c = dquote then (parseJsonStringBodyAux fuel rest).map (fun r => (Json.str r.1, r.2))
      else if c = lbrace then parseJsonObjBody fuel (skipWs rest)
      else if c = '[' then parseJsonArrBody fuel (skipWs rest)
      else if List.isPrefixOf ("true".toList) cs then some (Json.bool true, cs.drop 4)
      else if List.isPrefixOf ("false".toList) cs then some (Json.bool false, cs.drop 5)
      else if List.isPrefixOf ("null".toList) cs then some (Json.null, cs.drop 4)
      else (parseJsonNum cs).map (fun r => (Json.num r.1, r.2))

def parseJsonObjBody : Nat → List Char → Option (Json × List Char)
  | 0, _ => none
  | fuel + 1, cs =>
    match cs with
    | [] => none
    | c :: rest => if c = rbrace then some (Json.obj [], rest) else parseJsonMembers fuel cs []

def parseJsonMembers : Nat → List Char → List (List Char × Json) → Option (Json × List Char)
  | 0, _, _ => none
  | fuel + 1, cs, acc =>
    match skipWs cs with
    | [] => none
    | c :: rest =>
      if c = dquote then
        match parseJsonStringBody rest with
        | none => none
        | some (key, r1) =>
          match skipWs r1 with
          | [] => none
          | c2 :: r2 =>
            if c2 = ':' then
              match parseJsonVal fuel r2 with
              | none => none
              | some (v, r3) =>
                match skipWs r3 with
                | [] => none
                | d :: r4 =>
                  if d = ',' then parseJsonMembers fuel r4 (acc ++ [(key, v)])
                  else if d = rbrace then some (Json.obj (acc ++ [(key, v)]), r4)
                  else none
            else none
      else none

def parseJsonArrBody : Nat → List Char → Option (Json × List Char)
  | 0, _ => none
  | fuel + 1, cs =>
    match cs with
    | [] => none
    | c :: rest => if c = ']' then some (Json.arr [], rest) else parseJsonElems fuel cs []

def parseJsonElems : Nat → List Char → List Json → Option (Json × List Char)
  | 0, _, _ => none
  | fuel + 1, cs, acc =>
    match parseJsonVal fuel cs with
    | none => none
    | some (v, r1) =>
      match skipWs r1 with
      | [] => none
      | d :: r2 =>
        if d = ',' then parseJsonElems fuel r2 (acc ++ [v])
        else if d = ']' then some (Json.arr (acc ++ [v]), r2)
        else none

end

/-- Model of `JSON.parse`: parse one value, then require only whitespace to
remain.  A `none` result models the thrown `SyntaxError`. -/
def jsonParse (cs : List Char) : Option Json :=
  match parseJsonVal (4 * cs.length + 8) cs with
  | some (v, rest) => if (skipWs rest).isEmpty then some v else none
  | none => none

/-- Member access `data.key` on a parsed value: JavaScript object lookup
(last duplicate key wins, as in `JSON.parse`); `Json.null` stands for both
`null` and `undefined`, which the source only distinguishes through
truthiness. -/
def lookupField (j : Json) (key : List Char) : Json :=
  match j with
  | Json.obj fs =>
    match (fs.filter (fun kv => kv.1 = key)).getLast? with
    | some kv => kv.2
    | none => Json.null
  | _ => Json.null

/-- JavaScript truthiness of a JSON value. -/
def truthy : Json → Bool
  | .null => false
  | .bool b => b
  | .str s => ¬ s.isEmpty
  | .num lex => (lex.takeWhile (fun c => c ≠ 'e' ∧ c ≠ 'E')).any (fun c => c.isDigit ∧ c ≠ '0')
  | .arr _ => true
  | .obj _ => true

/-- JavaScript `a || b`. -/
def jsOr (a b : Json) : Json := if truthy a then a else b

/- ===== Instruction tags (parseImageTags, src/index.js lines 638-805) ===== -/

/-- Lines 693-697: quote/entity normalization applied to the attribute
grammar's instruction JSON, in source order (all apostrophes first, then
the three entities). -/
def normalizeInstructionJson (cs : List Char) : List Char :=
  let s1 := cs.map (fun c => if c = squote then dquote else c)
  let s2 := replaceAllSub ("&quot;".toList) [dquote] s1
  let s3 := replaceAllSub ("&apos;".toList) [squote] s2
  replaceAllSub ("&amp;".toList) ['&'] s3

/-- Line 782: the legacy grammar only normalizes apostrophes. -/
def normalizeLegacyJson (cs : List Char) : List Char :=
  cs.map (fun c => if c = squote then dquote else c)

/-- A parsed instruction, as pushed by `parseImageTags`.  Field values are
`Json` because the source stores whatever `JSON.parse` produced (filtered
only through `||` defaults). -/
structure IIGTag where
  fullMatch : List Char
  index : Nat
  style : Json
  prompt : Json
  aspectRatio : Json
  imageSize : Json
  quality : Json
  isNewFormat : Bool
  existingSrc : Option (List Char)
deriving DecidableEq, Repr

/-- Lines 701-711 / 785-794: the tag record built from decoded JSON. -/
def tagOfJson (fullMatch : List Char) (index : Nat) (isNew : Bool)
    (existingSrc : Option (List Char)) (data : Json) : IIGTag :=
  { fullMatch := fullMatch, index := index,
    style := jsOr (lookupField data ("style".toList)) (Json.str []),
    prompt := jsOr (lookupField data ("prompt".toList)) (Json.str []),
    aspectRatio := jsOr (lookupField data ("aspect_ratio".toList))
      (jsOr (lookupField data ("aspectRatio".toList)) Json.null),
    imageSize := jsOr (lookupField data ("image_size".toList))
      (jsOr (lookupField data ("imageSize".toList)) Json.null),
    quality := jsOr (lookupField data ("quality".toList)) Json.null,
    isNewFormat := isNew, existingSrc := existingSrc }

def legacyMarker : List Char := "[IMG:GEN:".toList

/-- Lines 730-764: the linear scan that finds the end of the legacy tag's
JSON object.  State: `inString`, `escapeNext`, brace `depth`; the scan stops
right after the closing brace that returns the depth to zero outside a
string.  `pos` is the offset already consumed; the result is the length of
the JSON span (source: `jsonEnd - jsonStart`). -/
def findJsonEndAux : Bool → Bool → Int → Nat → List Char → Option Nat
  | _, _, _, _, [] => none
  | inString, escapeNext, depth, pos, c :: cs =>
    if escapeNext then findJsonEndAux inString false depth (pos + 1) cs
    else if c = bslash ∧ inString then findJsonEndAux inString true depth (pos + 1) cs
    else if c = dquote then findJsonEndAux (!inString) false depth (pos + 1) cs
    else if ¬ inString ∧ c = lbrace then
      findJsonEndAux inString false (depth + 1) (pos + 1) cs
    else if ¬ inString ∧ c = rbrace then
      if depth - 1 = 0 then some (pos + 1)
      else findJsonEndAux inString false (depth - 1) (pos + 1) cs
    else findJsonEndAux inString false depth (pos + 1) cs

def findJsonEnd (cs : List Char) : Option Nat := findJsonEndAux false false 0 0 cs

theorem findJsonEndAux_lt : ∀ (i e : Bool) (d : Int) (pos : Nat) (cs : List Char) (r : Nat),
    findJsonEndAux i e d pos cs = some r → pos < r ∧ r ≤ pos + cs.length := by
  intro i e d pos cs
  induction cs generalizing i e d pos with
  | nil => intro r h; simp [findJsonEndAux] at h
  | cons c rest ih =>
    intro r h
    simp only [findJsonEndAux] at h
    split at h
    · have := ih _ _ _ _ _ h; simp at this ⊢; omega
    · split at h
      · have := ih _ _ _ _ _ h; simp at this ⊢; omega
      · split at h
        · have := ih _ _ _ _ _ h; simp at this ⊢; omega
        · split at h
          · have := ih _ _ _ _ _ h; simp at this ⊢; omega
          · split at h
            · split at h
              · simp at h ⊢; omega
              · have := ih _ _ _ _ _ h; simp at this ⊢; omega
            · have := ih _ _ _ _ _ h; simp at this ⊢; omega

theorem findJsonEnd_pos {cs : List Char} {r : Nat} (h : findJsonEnd cs = some r) :
    1 ≤ r ∧ r ≤ cs.length := by
  have := findJsonEndAux_lt false false 0 0 cs r h
  omega

/-- Lines 719-802: the legacy `[IMG:GEN:{...}]` scan.  `off` is the absolute
document offset of the head of `cs`.  Where the source advances an index
(`searchStart`), the model recurses on the corresponding suffix; occurrences
of the marker cannot start strictly inside a previous marker (its later
characters are never `[`), so skipping the marker whole is faithful.
Recursion is fueled so that the definition evaluates inside the kernel;
every recursive call consumes at least one character, so the wrapper fuel
`cs.length + 1` is always enough. -/
def legacyScanAux : Nat → Nat → List Char → List IIGTag
  | 0, _, _ => []
  | fuel + 1, off, cs =>
    match cs with
    | [] => []
    | c :: rest =>
      if legacyMarker.isPrefixOf (c :: rest) then
        match findJsonEnd ((c :: rest).drop 9) with
        | none => legacyScanAux fuel (off + 9) ((c :: rest).drop 9)
        | some jlen =>
          let jsonStr := ((c :: rest).drop 9).take jlen
          if ((c :: rest).drop (9 + jlen)).head? = some ']' then
            match jsonParse (normalizeLegacyJson jsonStr) with
            | some data =>
              tagOfJson ((c :: rest).take (9 + jlen + 1)) off false none data
                :: legacyScanAux fuel (off + 9 + jlen + 1) ((c :: rest).drop (9 + jlen + 1))
            | none => legacyScanAux fuel (off + 9 + jlen + 1) ((c :: rest).drop (9 + jlen + 1))
          else legacyScanAux fuel (off + 9 + jlen) ((c :: rest).drop (9 + jlen))
      else legacyScanAux fuel (off + 1) rest

def legacyScan (off : Nat) (cs : List Char) : List IIGTag :=
  legacyScanAux (cs.length + 1) off cs

/- ===== The attribute-grammar regex (line 643) ===== -/

/-- JavaScript `\s` (the code points realistically present in chat text). -/
def jsSpace (c : Char) : Bool :=
  c = ' ' ∨ c.toNat = 9 ∨ c.toNat = 10 ∨ c.toNat = 13 ∨ c.toNat = 11 ∨
    c.toNat = 12 ∨ c.toNat = 160

/-- Case-insensitive prefix match (the regexes carry the `i` flag). -/
def matchCI (pat cs : List Char) : Bool :=
  decide (pat.length ≤ cs.length) &&
    (pat.zip cs).all (fun ab => ab.1.toLower = ab.2.toLower)

def firstSome {α β : Type} : List α → (α → Option β) → Option β
  | [], _ => none
  | a :: as, f =>
    match f a with
    | some b => some b
    | none => firstSome as f

def charPositions (q : Char) : List Char → List Nat
  | [] => []
  | c :: cs => (if c = q then [0] else []) ++ (charPositions q cs).map (· + 1)

/-- Match `\s*=\s*(['"])` and return the consumed length and the quote. -/
def eqQuoteParse (cs : List Char) : Option (Nat × Char) :=
  let w1 := (cs.takeWhile jsSpace).length
  match (cs.drop w1).head? with
  | some e =>
    if e = '=' then
      let cs2 := cs.drop (w1 + 1)
      let w2 := (cs2.takeWhile jsSpace).length
      match (cs2.drop w2).head? with
      | some q => if q = dquote ∨ q = squote then some (w1 + 1 + w2 + 1, q) else none
      | none => none
    else none
  | none => none

/-- The lazy `([\s\S]*?)\1` followed by `[^>]*>`: candidate closing quotes
are tried nearest-first; after the closing quote the match runs to the next
`>`.  Returns consumed length (value, quote, tail, `>`) and the captured
value. -/
def valueAttempt (q : Char) (cs : List Char) : Option (Nat × List Char) :=
  firstSome (charPositions q cs) (fun v =>
    let a := cs.drop (v + 1)
    let t := (a.takeWhile (fun ch => ch ≠ '>')).length
    if (a.drop t).head? = some '>' then some (v + 1 + t + 1, cs.take v) else none)

def attrNameChars : List Char := "data-iig-instruction".toList

/-- After the attribute name: `\s*=\s*(['"]) value \1 [^>]* >`. -/
def attrTailParse (cs : List Char) : Option (Nat × List Char) :=
  match eqQuoteParse (cs.drop attrNameChars.length) with
  | some (eqLen, q) =>
    (valueAttempt q (cs.drop (attrNameChars.length + eqLen))).map
      (fun r => (attrNameChars.length + eqLen + r.1, r.2))
  | none => none

/-- One attempt of `/<img\s+[^>]*data-iig-instruction\s*=\s*(['"])([\s\S]*?)\1[^>]*>/i`
at the head of `cs`.  The greedy `[^>]*` is modelled by trying candidate
attribute-name positions inside the no-`>` run farthest-first (backtracking
order of a greedy loop).  Returns the full match length and the captured
instruction text. -/
def imgTagMatchAt (cs : List Char) : Option (Nat × List Char) :=
  match cs with
  | [] => none
  | c :: r1 =>
    if c = '<' ∧ matchCI ("img".toList) r1 then
      let r2 := r1.drop 3
      let wsn := (r2.takeWhile jsSpace).length
      if wsn = 0 then none
      else
        let r3 := r2.drop wsn
        let runLen := (r3.takeWhile (fun ch => ch ≠ '>')).length
        (firstSome (((List.range (runLen + 1)).filter
            (fun p => matchCI attrNameChars (r3.drop p))).reverse)
          (fun p => (attrTailParse (r3.drop p)).map (fun r => (p + r.1, r.2)))).map
          (fun r => (4 + wsn + r.1, r.2))
    else none

theorem firstSome_eq_some {α β : Type} {l : List α} {f : α → Option β} {b : β}
    (h : firstSome l f = some b) : ∃ a ∈ l, f a = some b := by
  induction l with
  | nil => simp [firstSome] at h
  | cons x xs ih =>
    simp only [firstSome] at h
    cases hx : f x with
    | some v => rw [hx] at h; exact ⟨x, by simp, by simp [hx, ← h]⟩
    | none =>
      rw [hx] at h
      obtain ⟨a, ha, hfa⟩ := ih h
      exact ⟨a, by simp [ha], hfa⟩

theorem imgTagMatchAt_pos {cs : List Char} {pr : Nat × List Char}
    (h : imgTagMatchAt cs = some pr) : 0 < pr.1 := by
  cases cs with
  | nil => simp [imgTagMatchAt] at h
  | cons c r1 =>
    simp only [imgTagMatchAt] at h
    split at h
    · split at h
      · simp at h
      · rw [Option.map_eq_some'] at h
        obtain ⟨a, _, rfl⟩ := h
        simp
    · simp at h

/-- Lines 651-652: `fullImgTag.match(/src\s*=\s*(['"])([\s\S]*?)\1/i)`,
returning the captured `src` value of the first match.  With nothing after
the backreference, the lazy group always ends at the first same-quote
character. -/
def srcAttrFind (cs : List Char) : Option (List Char) :=
  match cs with
  | [] => none
  | _ :: rest =>
    match (if matchCI ("src".toList) cs then
             match eqQuoteParse (cs.drop 3) with
             | some (eqLen, q) =>
               match indexOfChar q (cs.drop (3 + eqLen)) with
               | some v => some ((cs.drop (3 + eqLen)).take v)
               | none => none
             | none => none
           else none) with
    | some v => some v
    | none => srcAttrFind rest

/-- Line 658: `srcValue && srcValue.startsWith('/') && srcValue.length > 5`. -/
def srcHasPath (srcValue : List Char) : Bool :=
  !srcValue.isEmpty && srcValue.head? = some '/' && decide (srcValue.length > 5)

/-- Lines 654-689: whether an attribute-grammar tag with the given `src`
value is dispatched (true exactly when the source reaches the `tags.push`):
error-sentinel images are skipped outside `forceAll`; `forceAll` includes
everything else; a marker or empty src needs generation; a path is probed
when existence checking is on and needs generation when the probe reports
it missing; everything else is skipped. -/
def srcNeedsGeneration (fileExists : List Char → Bool)
    (checkExistence forceAll : Bool) (srcValue : List Char) : Bool :=
  let hasMarker := containsSub ("[IMG:GEN]".toList) srcValue ||
    containsSub ("[IMG:".toList) srcValue
  let hasErrorImage := containsSub ("error.svg".toList) srcValue
  if hasErrorImage && !forceAll then false
  else if forceAll then true
  else if hasMarker || srcValue.isEmpty then true
  else if srcHasPath srcValue && checkExistence then !fileExists srcValue
  else false

/-- Lines 642-717: the attribute-grammar pass, including the generation
gates (`hasMarker` / `hasErrorImage` / `hasPath`, existence probe) and JSON
decoding.  `fileExists` is the external existence probe behind
`checkFileExists` (line 618). -/
def attrScanAux (fileExists : List Char → Bool) (checkExistence forceAll : Bool) :
    Nat → Nat → List Char → List IIGTag
  | 0, _, _ => []
  | fuel + 1, off, cs =>
    match cs with
    | [] => []
    | c :: rest =>
      match imgTagMatchAt (c :: rest) with
      | some (flen, instr) =>
        let fullTag := (c :: rest).take flen
        let next :=
          attrScanAux fileExists checkExistence forceAll fuel (off + flen)
            ((c :: rest).drop flen)
        let srcValue := match srcAttrFind fullTag with
          | some v => v
          | none => []
        if srcNeedsGeneration fileExists checkExistence forceAll srcValue then
          match jsonParse (normalizeInstructionJson instr) with
          | some data =>
            tagOfJson fullTag off true (if srcHasPath srcValue then some srcValue else none)
              data :: next
          | none => next
        else next
      | none => attrScanAux fileExists checkExistence forceAll fuel (off + 1) rest

def attrScan (fileExists : List Char → Bool) (checkExistence forceAll : Bool)
    (off : Nat) (cs : List Char) : List IIGTag :=
  attrScanAux fileExists checkExistence forceAll (cs.length + 1) off cs

/-- Lines 638-805: `parseImageTags`.  The attribute-grammar loop runs first
and pushes all its tags, then the legacy loop pushes all of its tags. -/
def parseImageTags (fileExists : List Char → Bool) (checkExistence forceAll : Bool)
    (text : List Char) : List IIGTag :=
  attrScan fileExists checkExistence forceAll 0 text ++ legacyScan 0 text


/- ===== Persistence rewrite (processTag, src/index.js lines 1064-1096) ===== -/

/-- JavaScript `$` expansion inside a replacement string: `$$`, `$&`,
dollar-backtick (text before the match), dollar-apostrophe (text after the
match), `$n` for capture groups; anything else stays literal. -/
def jsExpandRepl (matched before after : List Char) (groups : List (List Char)) :
    List Char → List Char
  | [] => []
  | c :: cs =>
    if c = '$' then
      match cs with
      | [] => ['$']
      | d :: ds =>
        if d = '$' then '$' :: jsExpandRepl matched before after groups ds
        else if d = '&' then matched ++ jsExpandRepl matched before after groups ds
        else if d = btick then before ++ jsExpandRepl matched before after groups ds
        else if d = squote then after ++ jsExpandRepl matched before after groups ds
        else if d.isDigit ∧ d ≠ '0' ∧ d.toNat - 48 ≤ groups.length then
          (groups.getD (d.toNat - 49) []) ++ jsExpandRepl matched before after groups ds
        else '$' :: jsExpandRepl matched before after groups (d :: ds)
    else c :: jsExpandRepl matched before after groups cs

/-- JavaScript `s.replace(pattern, repl)` with a string pattern: only the
first occurrence is replaced, with `$` expansion (no capture groups). -/
def replaceFirstStr (s pat repl : List Char) : List Char :=
  match subFindFrom pat s 0 with
  | none => s
  | some n =>
    s.take n ++ jsExpandRepl pat (s.take n) (s.drop (n + pat.length)) [] repl
      ++ s.drop (n + pat.length)

/-- First match of the rewrite regex `/src\s*=\s*([\x27"])[^\x27"]*\1/i`
(lines 1069 and 1090): start offset, match length, captured quote.  The
greedy value class excludes both quote characters, so the match is the
maximal quote-free run followed by the same quote. -/
def srcRWFind (off : Nat) (cs : List Char) : Option (Nat × Nat × Char) :=
  match cs with
  | [] => none
  | _ :: rest =>
    match (if matchCI ("src".toList) cs then
             match eqQuoteParse (cs.drop 3) with
             | some (eqLen, q) =>
               let a := cs.drop (3 + eqLen)
               let run := (a.takeWhile (fun ch => ch ≠ dquote ∧ ch ≠ squote)).length
               if (a.drop run).head? = some q then some (off, 3 + eqLen + run + 1, q)
               else none
             | none => none
           else none) with
    | some r => some r
    | none => srcRWFind (off + 1) rest

/-- The replacement template `src="${imagePath}"`. -/
def srcReplaceTemplate (path : List Char) : List Char :=
  "src=\"".toList ++ path ++ [dquote]

/-- `tag.replace(srcRegex, repl)` — regex replace, first match, group 1 is
the quote. -/
def srcRegexReplaceFirst (tag repl : List Char) : List Char :=
  match srcRWFind 0 tag with
  | none => tag
  | some (n, len, q) =>
    tag.take n ++
      jsExpandRepl ((tag.drop n).take len) (tag.take n) (tag.drop (n + len)) [[q]] repl ++
      tag.drop (n + len)

def ERROR_IMAGE_PATH : List Char :=
  "/scripts/extensions/third-party/sillyimages/error.svg".toList

/-- Lines 1065-1070: `Done`, attribute grammar — swap the src attribute for
the artifact path inside the tag text, then swap the first occurrence of the
old tag text in the log. -/
def applyDoneNew (mes tag imagePath : List Char) : List Char :=
  replaceFirstStr mes tag (srcRegexReplaceFirst tag (srcReplaceTemplate imagePath))

/-- Lines 1071-1076: `Done`, legacy grammar — the tag becomes the completion
marker `[IMG:✓:path]`. -/
def applyDoneLegacy (mes tag imagePath : List Char) : List Char :=
  replaceFirstStr mes tag ("[IMG:✓:".toList ++ imagePath ++ "]".toList)

/-- Lines 1088-1091: `Error`, attribute grammar — src becomes the fixed
error image path. -/
def applyErrorNew (mes tag : List Char) : List Char :=
  replaceFirstStr mes tag (srcRegexReplaceFirst tag (srcReplaceTemplate ERROR_IMAGE_PATH))

/-- Lines 1092-1096: `Error`, legacy grammar — the tag becomes
`[IMG:ERROR:` + the first 50 characters of the message + `]`. -/
def applyErrorLegacy (mes tag errMsg : List Char) : List Char :=
  replaceFirstStr mes tag ("[IMG:ERROR:".toList ++ errMsg.take 50 ++ "]".toList)

/- ===== Retry loop (generateImageWithRetry, lines 545-613) ===== -/

/-- Lines 595-600: retryability is a substring test on `error.message`. -/
def retryableError (msg : List Char) : Bool :=
  containsSub ("429".toList) msg || containsSub ("503".toList) msg ||
  containsSub ("502".toList) msg || containsSub ("504".toList) msg ||
  containsSub ("timeout".toList) msg || containsSub ("network".toList) msg

/-- Lines 580-610: the attempt loop.  `resp k` is the outcome of the k-th
provider call (`generateImageGemini`/`generateImageOpenAI`); the result is
the final outcome together with the backoff delays slept between attempts,
in order.  `fuel` is `maxRetries - attempt`. -/
def retryLoop (baseDelay : Nat) (resp : Nat → Except (List Char) (List Char)) :
    Nat → Nat → Except (List Char) (List Char) × List Nat
  | attempt, 0 =>
    match resp attempt with
    | .ok r => (.ok r, [])
    | .error e => (.error e, [])
  | attempt, fuel + 1 =>
    match resp attempt with
    | .ok r => (.ok r, [])
    | .error e =>
      if retryableError e then
        let r2 := retryLoop baseDelay resp (attempt + 1) fuel
        (r2.1, baseDelay * 2 ^ attempt :: r2.2)
      else (.error e, [])

theorem retryLoop_eq (baseDelay : Nat) (resp : Nat → Except (List Char) (List Char))
    (attempt fuel : Nat) :
    retryLoop baseDelay resp attempt fuel =
      match resp attempt with
      | .ok r => (.ok r, [])
      | .error e =>
        match fuel with
        | 0 => (.error e, [])
        | f + 1 =>
          if retryableError e then
            let r2 := retryLoop baseDelay resp (attempt + 1) f
            (r2.1, baseDelay * 2 ^ attempt :: r2.2)
          else (.error e, []) := by
  cases fuel <;> rfl

/-- Lines 545-613: `generateImageWithRetry` (provider call and settings
abstracted into the oracle; a thrown `lastError` is the `.error` result). -/
def generateImageWithRetry (maxRetries baseDelay : Nat)
    (resp : Nat → Except (List Char) (List Char)) :
    Except (List Char) (List Char) × List Nat :=
  retryLoop baseDelay resp 0 maxRetries

/-- Modelled from the spec (§4.3, amended for C4): attempt `k` is the last
one iff it succeeds or fails with a message carrying none of the retryable
substrings. -/
def attemptStops (resp : Nat → Except (List Char) (List Char)) (k : Nat) : Bool :=
  match resp k with
  | .ok _ => true
  | .error e => !retryableError e

/-- Modelled from the spec (§4.3, amended for C4): the loop stops at the
first stopping attempt, capped at the ceiling. -/
def retryStopIdx (maxRetries : Nat) (resp : Nat → Except (List Char) (List Char)) : Nat :=
  (((List.range (maxRetries + 1)).filter (attemptStops resp)).head?).getD maxRetries

/-- Modelled from the spec (§4.3, amended for C4): outcome is that of the
stopping attempt and attempt `k` is preceded by delay `baseDelay * 2 ^ k`. -/
def generateImageRetrySpec (maxRetries baseDelay : Nat)
    (resp : Nat → Except (List Char) (List Char)) :
    Except (List Char) (List Char) × List Nat :=
  (resp (retryStopIdx maxRetries resp),
   (List.range (retryStopIdx maxRetries resp)).map (fun k => baseDelay * 2 ^ k))

/- ===== Processing guard (processMessageTags, lines 850-1136) ===== -/

/-- The facts one `processMessageTags` invocation discovers as it runs. -/
structure PmtEnv where
  enabled : Bool
  msgValid : Bool
  tagsFound : Bool
  elementFound : Bool
  mesTextFound : Bool
deriving DecidableEq, Repr

/-- Progress of one invocation, cut at the source's suspension points:
`start` is before line 854; `parsing` is suspended inside the awaited
`parseImageTags` (line 866); `jobsRunning` is suspended in the awaited
`Promise.all` (line 1105); `saving` is suspended in `saveChat`
(line 1113). -/
inductive PmtPhase where
  | start
  | parsing
  | jobsRunning
  | saving
  | finished
deriving DecidableEq, Repr

/-- Shared state: whether the message id is in `processingMessages`
(line 11), how many times a set of jobs was launched for it, and how many
`saveChat` calls ran. -/
structure PmtState where
  processingMessages : Bool
  jobsStarted : Nat
  chatSaves : Nat
deriving DecidableEq, Repr

/-- Advance one invocation from its current suspension point to the next
(lines 850-1136 of the source, same order of checks):
the enabled/guard/message checks precede the awaited parse; after the parse
come the empty check (line 871), the `processingMessages.add` (line 877),
the two element lookups whose failure returns with the mark still set
(lines 883-890), and the fan-out; after the join, the `finally` removes the
mark (line 1108) and the save starts. -/
def pmtStep (env : PmtEnv) : PmtPhase × PmtState → PmtPhase × PmtState :=
  fun s =>
    match s.1 with
    | .start =>
      if ¬ env.enabled then (.finished, s.2)
      else if s.2.processingMessages then (.finished, s.2)
      else if ¬ env.msgValid then (.finished, s.2)
      else (.parsing, s.2)
    | .parsing =>
      if ¬ env.tagsFound then (.finished, s.2)
      else
        let st1 := { s.2 with processingMessages := true }
        if ¬ env.elementFound then (.finished, st1)
        else if ¬ env.mesTextFound then (.finished, st1)
        else (.jobsRunning, { st1 with jobsStarted := st1.jobsStarted + 1 })
    | .jobsRunning => (.saving, { s.2 with processingMessages := false })
    | .saving => (.finished, { s.2 with chatSaves := s.2.chatSaves + 1 })
    | .finished => (.finished, s.2)

/-- Cooperative interleaving of two invocations for the same message id:
`true` steps the first, `false` the second. -/
def pmtRun (env1 env2 : PmtEnv) :
    List Bool → PmtPhase × PmtPhase × PmtState → PmtPhase × PmtPhase × PmtState
  | [], s => s
  | pick :: rest, (p1, p2, st) =>
    if pick then
      let r := pmtStep env1 (p1, st)
      pmtRun env1 env2 rest (r.1, p2, r.2)
    else
      let r := pmtStep env2 (p2, st)
      pmtRun env1 env2 rest (p1, r.1, r.2)

def pmtInit : PmtPhase × PmtPhase × PmtState :=
  (.start, .start, { processingMessages := false, jobsStarted := 0, chatSaves := 0 })

def pmtEnvAll : PmtEnv :=
  { enabled := true, msgValid := true, tagsFound := true,
    elementFound := true, mesTextFound := true }

/- ===== Fan-out / join (lines 893-1113) ===== -/

inductive RunEvent where
  | settle (i : Nat) (ok : Bool)
  | chatSave
deriving DecidableEq, Repr

/-- Lines 893-1101: one `processTag` job.  The generation call, the artifact
save and the `Done` rewrite sit inside `try`; the `catch` performs the
`Error` rewrite.  Either way the job settles and its promise fulfills. -/
def processTag (genRes saveRes : Except (List Char) (List Char)) (i : Nat) :
    Except (List Char) Unit × RunEvent :=
  match (do
      let _ ← genRes
      let _ ← saveRes
      pure () : Except (List Char) Unit) with
  | .ok _ => (.ok (), .settle i true)
  | .error _ => (.ok (), .settle i false)

/-- `Promise.all`: rejects with the first rejection, else fulfills. -/
def promiseAll {E : Type} : List (Except E Unit) → Except E Unit
  | [] => .ok ()
  | .ok _ :: rest => promiseAll rest
  | .error e :: _ => .error e

/-- Lines 1103-1113: fan out one job per tag, join, then save the chat once.
Had the join rejected, the exception would skip the `saveChat` call. -/
def processMessageTagsJoin (gen save : Nat → Except (List Char) (List Char))
    (n : Nat) : List RunEvent × Nat :=
  let jobs := (List.range n).map (fun i => processTag (gen i) (save i) i)
  match promiseAll (jobs.map (fun j => j.1)) with
  | .ok _ => (jobs.map (fun j => j.2) ++ [RunEvent.chatSave], 1)
  | .error _ => (jobs.map (fun j => j.2), 0)


instance {e a : Type} [DecidableEq e] [DecidableEq a] : DecidableEq (Except e a) :=
  fun x y =>
  match x, y with
  | .ok v, .ok w => if h : v = w then .isTrue (by rw [h]) else .isFalse (by simp [h])
  | .error v, .error w => if h : v = w then .isTrue (by rw [h]) else .isFalse (by simp [h])
  | .ok _, .error _ => .isFalse (by simp)
  | .error _, .ok _ => .isFalse (by simp)

/- ===== Shared concrete samples ===== -/

/-- The Scenario A attribute tag:
`<img data-iig-instruction=\x27{"style":"anime","prompt":"red-haired girl"}\x27 src="[IMG:GEN]">`. -/
def sampleTagA : List Char :=
  "<img data-iig-instruction=\x27\x7b\"style\":\"anime\",\"prompt\":\"red-haired girl\"\x7d\x27 src=\"[IMG:GEN]\">".toList

def sampleLogA : List Char := "Hello! ".toList ++ sampleTagA ++ " Enjoy.".toList

def samplePath : List Char := "/user/images/Seraphina/iig_2025.png".toList

def sampleLegacyTag : List Char :=
  "[IMG:GEN:\x7b\"prompt\":\"a castle\"\x7d]".toList

def sampleLogLegacy : List Char :=
  "The castle: ".toList ++ sampleLegacyTag ++ " (rendering)".toList

/- ===== String-replace lemmas ===== -/

theorem replaceFirstStr_not_contains {pat s : List Char}
    (h : containsSub pat s = false) (repl : List Char) :
    replaceFirstStr s pat repl = s := by
  unfold replaceFirstStr
  unfold containsSub at h
  cases hf : subFindFrom pat s 0 with
  | none => rfl
  | some n => rw [hf] at h; simp at h

/- ===== C5: idempotence of the persistence rewrite ===== -/

set_option maxRecDepth 8000 in
/-- C5 counterexample: the claim fails on a log holding two identical copies
of the tag text — the second application rewrites the second copy, so
applying the `Done` rewrite twice differs from applying it once. -/
theorem persistence_not_idempotent_on_duplicates :
    applyDoneNew (applyDoneNew (sampleTagA ++ sampleTagA) sampleTagA samplePath)
        sampleTagA samplePath ≠
      applyDoneNew (sampleTagA ++ sampleTagA) sampleTagA samplePath := by decide

/-- C5 (amended): the `Done` rewrite is idempotent for every log in which
the instruction tag text no longer occurs after the first application — in
particular whenever the tag text occurred at most once and is not recreated.
The second application is then a no-op, for both grammars. -/
theorem persistence_rewrite_idempotent :
    (∀ mes tag path, containsSub tag (applyDoneNew mes tag path) = false →
      applyDoneNew (applyDoneNew mes tag path) tag path = applyDoneNew mes tag path) ∧
    (∀ mes tag path, containsSub tag (applyDoneLegacy mes tag path) = false →
      applyDoneLegacy (applyDoneLegacy mes tag path) tag path =
        applyDoneLegacy mes tag path) := by
  constructor <;> intro mes tag path h <;> exact replaceFirstStr_not_contains h _

/-- C5 witness: on the Scenario A log the hypothesis holds and the rewrite
is idempotent. -/
theorem persistence_rewrite_idempotent_witness :
    containsSub sampleTagA (applyDoneNew sampleLogA sampleTagA samplePath) = false ∧
    applyDoneNew (applyDoneNew sampleLogA sampleTagA samplePath) sampleTagA samplePath =
      applyDoneNew sampleLogA sampleTagA samplePath :=
  ⟨by decide, persistence_rewrite_idempotent.1 sampleLogA sampleTagA samplePath (by decide)⟩

/- ===== C4: retry classification and backoff ===== -/

def sampleImageData : List Char := "data:image/png;base64,AAA".toList

def sampleResp503 : Nat → Except (List Char) (List Char)
  | 0 => .error ("API Error (503): upstream unavailable".toList)
  | 1 => .error ("API Error (503): upstream unavailable".toList)
  | _ => .ok sampleImageData

def sampleResp400 : Nat → Except (List Char) (List Char) :=
  fun _ => .error ("API Error (400): bad request".toList)

def sampleResp400With503Body : Nat → Except (List Char) (List Char)
  | 0 => .error ("API Error (400): upstream returned 503".toList)
  | _ => .ok sampleImageData

/-- C4 counterexample: a `400` response whose body text mentions `503` is
retried (one backoff delay was slept and the second attempt ran), because
the code classifies errors by substring of `error.message`, not by status
class; the claim "a 400 is never retried" is false. -/
theorem retry_of_400_with_503_body :
    generateImageWithRetry 2 1000 sampleResp400With503Body =
      (.ok sampleImageData, [1000]) := by decide

theorem retryStopIdx_zero (resp : Nat → Except (List Char) (List Char)) :
    retryStopIdx 0 resp = 0 := by
  unfold retryStopIdx
  cases h : attemptStops resp 0 <;> simp [List.range_succ, h]

theorem retryStopIdx_succ (maxR : Nat) (resp : Nat → Except (List Char) (List Char)) :
    retryStopIdx (maxR + 1) resp =
      if attemptStops resp 0 then 0 else retryStopIdx maxR (fun k => resp (k + 1)) + 1 := by
  unfold retryStopIdx
  rw [List.range_succ_eq_map, List.filter_cons]
  cases h : attemptStops resp 0 with
  | true => simp [h]
  | false =>
    simp only [h, if_neg, Bool.false_eq_true, not_false_eq_true, if_true, cond_false]
    rw [List.filter_map, List.head?_map]
    have : (attemptStops resp ∘ Nat.succ) = attemptStops (fun k => resp (k + 1)) := by
      funext k; simp [attemptStops, Nat.succ_eq_add_one]
    rw [this]
    cases hh : (List.filter (attemptStops fun k => resp (k + 1)) (List.range (maxR + 1))).head? <;>
      simp [hh]

theorem retryLoop_spec_aux (baseDelay : Nat) (resp : Nat → Except (List Char) (List Char)) :
    ∀ (fuel a : Nat),
      retryLoop baseDelay resp a fuel =
        (resp (a + retryStopIdx fuel (fun k => resp (a + k))),
         (List.range (retryStopIdx fuel (fun k => resp (a + k)))).map
           (fun k => baseDelay * 2 ^ (a + k))) := by
  intro fuel
  induction fuel with
  | zero =>
    intro a
    rw [retryStopIdx_zero, retryLoop_eq]
    cases h : resp a with
    | ok r => simp [h]
    | error e => simp [h]
  | succ f ih =>
    intro a
    have hshift : (fun k => (fun k2 => resp (a + k2)) (k + 1)) = fun k => resp (a + 1 + k) := by
      funext k
      have : a + (k + 1) = a + 1 + k := by omega
      simp [this]
    rw [retryStopIdx_succ f (fun k => resp (a + k)), hshift]
    cases h : resp a with
    | ok r =>
      have hs : attemptStops (fun k => resp (a + k)) 0 = true := by
        simp [attemptStops, h]
      rw [hs, retryLoop_eq]
      simp [h]
    | error e =>
      have hs : attemptStops (fun k => resp (a + k)) 0 = !retryableError e := by
        simp [attemptStops, h]
      rw [hs]
      cases hr : retryableError e with
      | true =>
        simp only [Bool.not_true, Bool.false_eq_true, if_false]
        rw [retryLoop_eq, h]
        simp only [hr, if_true]
        rw [ih (a + 1)]
        have h1 : a + (retryStopIdx f (fun k => resp (a + 1 + k)) + 1) =
            a + 1 + retryStopIdx f (fun k => resp (a + 1 + k)) := by omega
        rw [h1, List.range_succ_eq_map, List.map_cons, List.map_map]
        have h2 : ((fun k => baseDelay * 2 ^ (a + k)) ∘ Nat.succ) =
            (fun k => baseDelay * 2 ^ (a + 1 + k)) := by
          funext k
          have hk : a + (k + 1) = a + 1 + k := by omega
          simp [Function.comp, Nat.succ_eq_add_one, hk]
        rw [h2]
        have h3 : a + 0 = a := by omega
        rw [h3]
      | false =>
        simp only [Bool.not_false, if_true]
        rw [retryLoop_eq, h]
        simp [hr, h]

/-- C4 (amended): the retry loop retries a failed attempt `k` exactly when
the error message carries one of the substrings 429/502/503/504/timeout/
network and the ceiling is not reached, sleeping `baseDelay * 2 ^ k` before
the next attempt — classification is by message substring, not status class
(a 400 whose message lacks those substrings is terminal after the first
attempt).  Stated as: the loop equals the spec model
`generateImageRetrySpec`; two 503 responses then a 200 under a ceiling of 2
succeed with delays `d` and `2d` (`d = 1000`); a plain 400 is never
retried, for every ceiling. -/
theorem generateImageWithRetry_spec :
    (∀ maxRetries baseDelay resp,
      generateImageWithRetry maxRetries baseDelay resp =
        generateImageRetrySpec maxRetries baseDelay resp) ∧
    generateImageWithRetry 2 1000 sampleResp503 = (.ok sampleImageData, [1000, 2000]) ∧
    (∀ maxRetries, generateImageWithRetry maxRetries 1000 sampleResp400 =
      (.error ("API Error (400): bad request".toList), [])) := by
  refine ⟨?_, by decide, ?_⟩
  · intro maxR base resp
    unfold generateImageWithRetry generateImageRetrySpec
    rw [retryLoop_spec_aux base resp maxR 0]
    have hfe : (fun k => resp (0 + k)) = resp := by funext k; simp
    rw [hfe]
    simp
  · intro maxR
    cases maxR with
    | zero => decide
    | succ m =>
      unfold generateImageWithRetry
      simp only [retryLoop, sampleResp400]
      split
      · rename_i hcond
        exact absurd hcond (by decide)
      · rfl

/- ===== C9: fan-out, join, single save ===== -/

theorem processTag_fst (g s : Except (List Char) (List Char)) (i : Nat) :
    (processTag g s i).1 = .ok () := by
  cases g <;> cases s <;> rfl

theorem processTag_snd (g s : Except (List Char) (List Char)) (i : Nat) :
    (processTag g s i).2 =
      RunEvent.settle i (match g, s with
        | .ok _, .ok _ => true
        | _, _ => false) := by
  cases g <;> cases s <;> rfl

theorem promiseAll_ok {E : Type} (l : List (Except E Unit))
    (h : ∀ x ∈ l, x = .ok ()) : promiseAll l = .ok () := by
  induction l with
  | nil => rfl
  | cons x rest ih =>
    have hx := h x (by simp)
    subst hx
    simp only [promiseAll]
    exact ih (fun y hy => h y (by simp [hy]))

/-- C9: for every orchestration run the join completes regardless of the
individual job outcomes — each of the `n` jobs settles (`Done` when both
the generation and the artifact save succeed, `Error` otherwise), a failing
job never removes a sibling's settlement — and the durable chat save runs
exactly once, positioned after every settlement. -/
theorem run_join_completes_and_saves_once :
    ∀ (gen save : Nat → Except (List Char) (List Char)) (n : Nat),
      processMessageTagsJoin gen save n =
        ((List.range n).map (fun i =>
          RunEvent.settle i (match gen i, save i with
            | .ok _, .ok _ => true
            | _, _ => false)) ++ [RunEvent.chatSave], 1) := by
  intro gen save n
  have hall : promiseAll ((List.map (fun i => processTag (gen i) (save i) i)
      (List.range n)).map (fun j => j.1)) = .ok () := by
    apply promiseAll_ok
    intro x hx
    simp only [List.map_map, List.mem_map, Function.comp] at hx
    obtain ⟨i, _, rfl⟩ := hx
    exact processTag_fst (gen i) (save i) i
  have hsnd : (List.map (fun i => processTag (gen i) (save i) i)
      (List.range n)).map (fun j => j.2) =
      (List.range n).map (fun i => RunEvent.settle i (match gen i, save i with
        | .ok _, .ok _ => true
        | _, _ => false)) := by
    rw [List.map_map]
    apply List.map_congr_left
    intro i _
    exact processTag_snd (gen i) (save i) i
  simp only [processMessageTagsJoin]
  rw [hall]
  simp only [hsnd]

/- ===== C3: the processing guard ===== -/

/-- C3 counterexample: two triggers for the same message interleaved at the
parse suspension (the second trigger's guard check runs while the first is
awaiting `parseImageTags`) are both admitted: after the schedule
`[T1, T2, T1, T2]` both invocations sit in their job phase simultaneously
and two sets of jobs have been started — the claim's "at most one
orchestration run is active at any time" and "the second trigger performs
no work" are false on the code. -/
theorem guard_race_two_active_runs :
    pmtRun pmtEnvAll pmtEnvAll [true, false, true, false] pmtInit =
      (PmtPhase.jobsRunning, PmtPhase.jobsRunning,
        { processingMessages := true, jobsStarted := 2, chatSaves := 0 }) := by decide

/-- C3 (amended): the guard is advisory at the parse boundary: any trigger
whose guard check runs while the message is marked is rejected outright and
performs no work; in particular a second trigger whose check runs after the
first trigger has marked the message (any time from the end of the first
parse until the first run's finally block) leaves exactly one set of jobs
running.  Triggers interleaved inside the awaited parse may both be
admitted (see the counterexample). -/
theorem guard_rejects_when_marked :
    (∀ (env : PmtEnv) (st : PmtState), st.processingMessages = true →
      pmtStep env (PmtPhase.start, st) = (PmtPhase.finished, st)) ∧
    pmtRun pmtEnvAll pmtEnvAll [true, true, false, true, true] pmtInit =
      (PmtPhase.finished, PmtPhase.finished,
        { processingMessages := false, jobsStarted := 1, chatSaves := 1 }) := by
  constructor
  · intro env st h
    unfold pmtStep
    by_cases he : env.enabled <;> simp [he, h]
  · decide

/-- C3 witness: a marked state rejects a fresh trigger. -/
theorem guard_rejects_when_marked_witness :
    ({ processingMessages := true, jobsStarted := 0, chatSaves := 0 } :
        PmtState).processingMessages = true ∧
    pmtStep pmtEnvAll (PmtPhase.start,
        { processingMessages := true, jobsStarted := 0, chatSaves := 0 }) =
      (PmtPhase.finished,
        { processingMessages := true, jobsStarted := 0, chatSaves := 0 }) :=
  ⟨rfl, guard_rejects_when_marked.1 pmtEnvAll _ rfl⟩

/- ===== C10: the mark leaks on the element-not-found path ===== -/

/-- C10: the invocation that finds tags but whose rendered message element
is missing returns without removing the message from `processingMessages`
(the early return at lines 883-887 precedes the try/finally), so the mark
leaks: after the run finishes, `processingMessages` still holds the id and
a later trigger for the same message is rejected at the guard — no jobs,
no save, permanently.  This contradicts the removal the code's own
`finally` comment promises on every path. -/
theorem guard_mark_leak_on_missing_element :
    pmtRun { pmtEnvAll with elementFound := false } pmtEnvAll [true, true, false] pmtInit =
      (PmtPhase.finished, PmtPhase.finished,
        { processingMessages := true, jobsStarted := 0, chatSaves := 0 }) := by decide

/- ===== C8: hallucination recovery ===== -/

def sampleMissingPath : List Char := "/images/missing.png".toList

def sampleHallucLog : List Char :=
  "Look: <img data-iig-instruction=\x27\x7b\"prompt\":\"p1\"\x7d\x27 src=\"/images/missing.png\"> done".toList

/-- C8: in normal mode with existence checking on, an attribute tag whose
src holds a concrete path (no pending marker) that the probe reports
missing is still queued: for every probe reporting the path absent the
generation gate fires, and the full parse of the Scenario C message returns
the instruction (with the stale path recorded). -/
theorem hallucinated_path_is_requeued :
    (∀ fileExists : List Char → Bool, fileExists sampleMissingPath = false →
      srcNeedsGeneration fileExists true false sampleMissingPath = true) ∧
    parseImageTags (fun _ => false) true false sampleHallucLog =
      [{ fullMatch := ("<img data-iig-instruction=\x27\x7b\"prompt\":\"p1\"\x7d\x27 src=\"/images/missing.png\">".toList),
         index := 6,
         style := Json.str [],
         prompt := Json.str ("p1".toList),
         aspectRatio := Json.null,
         imageSize := Json.null,
         quality := Json.null,
         isNewFormat := true,
         existingSrc := some sampleMissingPath }] := by
  constructor
  · intro fe h
    simp only [srcNeedsGeneration, h]
    decide
  · decide

/-- C8 witness: the constantly-false probe reports the path absent and the
gate fires. -/
theorem hallucinated_path_is_requeued_witness :
    (fun _ : List Char => false) sampleMissingPath = false ∧
    srcNeedsGeneration (fun _ => false) true false sampleMissingPath = true :=
  ⟨rfl, hallucinated_path_is_requeued.1 (fun _ => false) rfl⟩


/- ===== C2: the legacy JSON span scan ===== -/

/-- Modelled from the spec (§4.1): the scan state of the legacy extraction —
"inside string" and "escape pending" flags plus a brace-depth counter. -/
structure ScanState where
  inString : Bool
  escapeNext : Bool
  depth : Int
deriving DecidableEq, Repr

/-- Modelled from the spec (§4.1): how one scanned character updates the
state. -/
def jsonScanStep (st : ScanState) (c : Char) : ScanState :=
  if st.escapeNext then ⟨st.inString, false, st.depth⟩
  else if c = bslash ∧ st.inString then ⟨st.inString, true, st.depth⟩
  else if c = dquote then ⟨!st.inString, false, st.depth⟩
  else if ¬ st.inString ∧ c = lbrace then ⟨st.inString, false, st.depth + 1⟩
  else if ¬ st.inString ∧ c = rbrace then ⟨st.inString, false, st.depth - 1⟩
  else ⟨st.inString, false, st.depth⟩

/-- Modelled from the spec (§4.1): the span ends at a closing brace reached
outside a string with no escape pending that returns the depth to zero. -/
def spanEndCond (st : ScanState) (c : Char) : Bool :=
  !st.escapeNext && !st.inString && (c == rbrace) && (st.depth == 1)

/-- Position of the first span-ending character, scanning from state `st`. -/
def spanEndFrom (st : ScanState) (cs : List Char) : Option Nat :=
  ((List.range cs.length).filter (fun i =>
    spanEndCond ((cs.take i).foldl jsonScanStep st) (cs.getD i ' '))).head?

/-- Modelled from the spec (§4.1): the JSON span length — one past the first
depth-restoring closing brace outside a string. -/
def jsonSpanEndSpec (cs : List Char) : Option Nat :=
  (spanEndFrom ⟨false, false, 0⟩ cs).map (fun i => i + 1)

theorem dquote_ne_bslash : dquote ≠ bslash := by decide

theorem lbrace_ne_dquote : lbrace ≠ dquote := by decide

theorem lbrace_ne_bslash : lbrace ≠ bslash := by decide

theorem rbrace_ne_dquote : rbrace ≠ dquote := by decide

theorem rbrace_ne_bslash : rbrace ≠ bslash := by decide

theorem rbrace_ne_lbrace : rbrace ≠ lbrace := by decide

theorem spanEndFrom_cons (st : ScanState) (c : Char) (rest : List Char) :
    spanEndFrom st (c :: rest) =
      if spanEndCond st c then some 0
      else (spanEndFrom (jsonScanStep st c) rest).map (fun i => i + 1) := by
  unfold spanEndFrom
  rw [List.length_cons, List.range_succ_eq_map, List.filter_cons]
  have hpred : ∀ i : Nat,
      spanEndCond ((List.take (Nat.succ i) (c :: rest)).foldl jsonScanStep st)
          ((c :: rest).getD (Nat.succ i) ' ') =
        spanEndCond ((List.take i rest).foldl jsonScanStep (jsonScanStep st c))
          (rest.getD i ' ') := by
    intro i
    rfl
  cases h : spanEndCond st c with
  | true =>
    simp only [List.take_zero, List.foldl_nil, List.getD_cons_zero, h, if_true, cond_true]
    rfl
  | false =>
    simp only [List.take_zero, List.foldl_nil, List.getD_cons_zero, h, Bool.false_eq_true,
      if_false, cond_false]
    rw [List.filter_map, List.head?_map]
    have : ((fun i =>
        spanEndCond ((List.take i (c :: rest)).foldl jsonScanStep st)
          ((c :: rest).getD i ' ')) ∘ Nat.succ) =
        (fun i => spanEndCond ((List.take i rest).foldl jsonScanStep (jsonScanStep st c))
          (rest.getD i ' ')) := by
      funext i
      exact hpred i
    rw [this]

theorem option_shift (o : Option Nat) (pos : Nat) :
    (o.map (fun i => i + 1)).map (fun i => pos + i + 1) =
      o.map (fun i => (pos + 1) + i + 1) := by
  cases o with
  | none => rfl
  | some v => simp only [Option.map_some']; congr 1; omega

/-- C2 core: the source's scan (`findJsonEnd`, lines 730-764) computes
exactly the spec's span end. -/
theorem findJsonEndAux_spec : ∀ (cs : List Char) (st : ScanState) (pos : Nat),
    findJsonEndAux st.inString st.escapeNext st.depth pos cs =
      (spanEndFrom st cs).map (fun i => pos + i + 1) := by
  intro cs
  induction cs with
  | nil =>
    intro st pos
    simp [findJsonEndAux, spanEndFrom]
  | cons c rest ih =>
    intro st pos
    rw [spanEndFrom_cons]
    show findJsonEndAux st.inString st.escapeNext st.depth pos (c :: rest) = _
    unfold findJsonEndAux
    by_cases h1 : st.escapeNext = true
    · have hc : spanEndCond st c = false := by simp [spanEndCond, h1]
      rw [h1, hc]
      simp only [if_true, Bool.false_eq_true, if_false]
      have hs : jsonScanStep st c = ⟨st.inString, false, st.depth⟩ := by
        simp [jsonScanStep, h1]
      rw [hs]
      have := ih ⟨st.inString, false, st.depth⟩ (pos + 1)
      rw [this, option_shift]
    · have h1f : st.escapeNext = false := by simpa using h1
      rw [h1f]
      simp only [Bool.false_eq_true, if_false]
      by_cases h2 : c = bslash ∧ st.inString = true
      · have hc : spanEndCond st c = false := by
          simp [spanEndCond, h2.2]
        rw [hc]
        simp only [Bool.false_eq_true, if_false, if_pos h2]
        have hs : jsonScanStep st c = ⟨st.inString, true, st.depth⟩ := by
          simp [jsonScanStep, h1f, h2.1, h2.2]
        rw [hs]
        have := ih ⟨st.inString, true, st.depth⟩ (pos + 1)
        rw [this, option_shift]
      · rw [if_neg h2]
        by_cases h3 : c = dquote
        · have hc : spanEndCond st c = false := by
            have : (c == rbrace) = false := by
              rw [h3]; decide
            simp [spanEndCond, this]
          rw [hc]
          simp only [Bool.false_eq_true, if_false, if_pos h3]
          have hs : jsonScanStep st c = ⟨!st.inString, false, st.depth⟩ := by
            simp [jsonScanStep, h1f, h2, h3, dquote_ne_bslash]
          rw [hs]
          have := ih ⟨!st.inString, false, st.depth⟩ (pos + 1)
          rw [this, option_shift]
        · rw [if_neg h3]
          by_cases h4 : ¬ st.inString = true ∧ c = lbrace
          · have hc : spanEndCond st c = false := by
              have : (c == rbrace) = false := by
                rw [h4.2]; decide
              simp [spanEndCond, this]
            rw [hc]
            simp only [Bool.false_eq_true, if_false, if_pos h4]
            have hs : jsonScanStep st c = ⟨st.inString, false, st.depth + 1⟩ := by
              simp [jsonScanStep, h1f, h2, h3, h4.1, h4.2, lbrace_ne_dquote, lbrace_ne_bslash]
            rw [hs]
            have := ih ⟨st.inString, false, st.depth + 1⟩ (pos + 1)
            rw [this, option_shift]
          · rw [if_neg h4]
            by_cases h5 : ¬ st.inString = true ∧ c = rbrace
            · rw [if_pos h5]
              by_cases h6 : st.depth - 1 = 0
              · have hc : spanEndCond st c = true := by
                  have hd : (st.depth == 1) = true := by
                    have : st.depth = 1 := by omega
                    simp [this]
                  have hin : st.inString = false := by
                    simpa using h5.1
                  simp [spanEndCond, h1f, hin, h5.2, hd]
                rw [if_pos h6, hc]
                simp
              · have hc : spanEndCond st c = false := by
                  have hd : (st.depth == 1) = false := by
                    have : ¬ st.depth = 1 := by omega
                    simp [this]
                  simp [spanEndCond, hd]
                rw [if_neg h6, hc]
                simp only [Bool.false_eq_true, if_false]
                have hs : jsonScanStep st c = ⟨st.inString, false, st.depth - 1⟩ := by
                  simp [jsonScanStep, h1f, h2, h3, h4, h5.1, h5.2, rbrace_ne_dquote,
                    rbrace_ne_bslash, rbrace_ne_lbrace]
                rw [hs]
                have := ih ⟨st.inString, false, st.depth - 1⟩ (pos + 1)
                rw [this, option_shift]
            · rw [if_neg h5]
              have hc : spanEndCond st c = false := by
                cases hsi : st.inString with
                | true => simp [spanEndCond, hsi]
                | false =>
                  have h5r : ¬ c = rbrace := fun hcb => h5 ⟨by simp [hsi], hcb⟩
                  have hbe : (c == rbrace) = false := by simpa using h5r
                  simp [spanEndCond, hbe]
              rw [hc]
              simp only [Bool.false_eq_true, if_false]
              have hs : jsonScanStep st c = ⟨st.inString, false, st.depth⟩ := by
                cases hsi : st.inString with
                | true =>
                  have h2b : ¬ c = bslash := fun hcb => h2 ⟨hcb, hsi⟩
                  simp [jsonScanStep, h1f, h3, hsi, h2b]
                | false =>
                  have h4l : ¬ c = lbrace := fun hcb => h4 ⟨by simp [hsi], hcb⟩
                  have h5r : ¬ c = rbrace := fun hcb => h5 ⟨by simp [hsi], hcb⟩
                  simp [jsonScanStep, h1f, h3, hsi, h4l, h5r]
              rw [hs]
              have := ih ⟨st.inString, false, st.depth⟩ (pos + 1)
              rw [this, option_shift]


theorem legacyMarker_length : legacyMarker.length = 9 := rfl

/-- Every instruction the legacy pass accepts decomposes as the marker, the
scanned JSON span (whose end is what `findJsonEnd` returned), and the
closing bracket that had to follow immediately; its JSON decoded after
normalization. -/
theorem legacyScanAux_shape :
    ∀ (fuel off : Nat) (cs : List Char) (t : IIGTag), t ∈ legacyScanAux fuel off cs →
      t.isNewFormat = false ∧
      ∃ js data tail,
        t.fullMatch = legacyMarker ++ js ++ [']'] ∧
        jsonParse (normalizeLegacyJson js) = some data ∧
        findJsonEnd (js ++ tail) = some js.length ∧
        tail.head? = some ']' ∧
        t = tagOfJson t.fullMatch t.index false none data := by
  intro fuel
  induction fuel with
  | zero =>
    intro off cs t ht
    simp [legacyScanAux] at ht
  | succ f ih =>
    intro off cs t ht
    cases cs with
    | nil => simp [legacyScanAux] at ht
    | cons c rest =>
      simp only [legacyScanAux] at ht
      split at ht
      · rename_i hp
        split at ht
        · exact ih _ _ _ ht
        · rename_i jlen hj
          split at ht
          · rename_i hb
            split at ht
            · rename_i data hd
              rcases List.mem_cons.1 ht with rfl | hmem
              · obtain ⟨t0, ht0⟩ := List.isPrefixOf_iff_prefix.1 hp
                have hdrop : (c :: rest).drop 9 = t0 := by
                  rw [← ht0, ← legacyMarker_length, List.drop_left]
                rw [hdrop] at hj hd
                have hpos := findJsonEnd_pos hj
                have hjslen : (t0.take jlen).length = jlen := by
                  simp only [List.length_take]
                  omega
                have happ : t0.take jlen ++ t0.drop jlen = t0 := List.take_append_drop _ _
                have htail : (t0.drop jlen).head? = some ']' := by
                  have hdd : (c :: rest).drop (9 + jlen) = t0.drop jlen := by
                    rw [← hdrop, List.drop_drop]
                  rw [← hdd]
                  exact hb
                have hfm : (c :: rest).take (9 + jlen + 1) =
                    legacyMarker ++ t0.take jlen ++ [']'] := by
                  rw [← ht0]
                  have h1 : 9 + jlen + 1 = legacyMarker.length + (jlen + 1) := by
                    rw [legacyMarker_length]; omega
                  rw [h1, List.take_append, List.take_add]
                  have : (t0.drop jlen).take 1 = [']'] := by
                    cases hdk : t0.drop jlen with
                    | nil => rw [hdk] at htail; simp at htail
                    | cons x xs =>
                      rw [hdk] at htail
                      simp only [List.head?_cons, Option.some.injEq] at htail
                      rw [htail]
                      rfl
                  rw [this, List.append_assoc]
                refine ⟨rfl, t0.take jlen, data, t0.drop jlen, ?_, ?_, ?_, htail, ?_⟩
                · simp only [tagOfJson]
                  exact hfm
                · exact hd
                · rw [happ, hjslen]
                  exact hj
                · rfl
              · exact ih _ _ _ hmem
            · exact ih _ _ _ ht
          · exact ih _ _ _ ht
      · exact ih _ _ _ ht

def sampleBracketTag : List Char :=
  "[IMG:GEN:\x7b\"prompt\":\"a\x7d strange [bracket] test\"\x7d]".toList

def sampleBracketLog : List Char := "x ".toList ++ sampleBracketTag ++ " y".toList

def sampleBracketParsed : IIGTag :=
  { fullMatch := sampleBracketTag,
    index := 2,
    style := Json.str [],
    prompt := Json.str ("a\x7d strange [bracket] test".toList),
    aspectRatio := Json.null,
    imageSize := Json.null,
    quality := Json.null,
    isNewFormat := false,
    existingSrc := none }

/-- C2: the legacy-grammar extraction is brace-correct: the scan's span end
equals the spec's first depth-restoring closing brace outside a string
(string and escape flags honored, so braces and brackets inside string
literals do not end the span); every accepted instruction's span is exactly
the scanned JSON immediately followed by the closing `]`; and the prompt
`a} strange [bracket] test` is extracted whole, not truncated at the inner
`}` or `]`. -/
theorem legacy_extraction_correct :
    (∀ cs, findJsonEnd cs = jsonSpanEndSpec cs) ∧
    (∀ (fuel off : Nat) (cs : List Char) (t : IIGTag), t ∈ legacyScanAux fuel off cs →
      t.isNewFormat = false ∧
      ∃ js data tail,
        t.fullMatch = legacyMarker ++ js ++ [']'] ∧
        jsonParse (normalizeLegacyJson js) = some data ∧
        findJsonEnd (js ++ tail) = some js.length ∧
        tail.head? = some ']' ∧
        t = tagOfJson t.fullMatch t.index false none data) ∧
    parseImageTags (fun _ => false) true false sampleBracketLog = [sampleBracketParsed] := by
  refine ⟨?_, legacyScanAux_shape, by decide⟩
  intro cs
  unfold findJsonEnd jsonSpanEndSpec
  have h := findJsonEndAux_spec cs ⟨false, false, 0⟩ 0
  simp only at h
  rw [h]
  cases spanEndFrom ⟨false, false, 0⟩ cs <;> simp

/-- C2 witness: the bracket-laden sample tag is accepted by the legacy scan
and decomposes as the theorem states. -/
theorem legacy_extraction_correct_witness :
    sampleBracketParsed ∈ legacyScanAux (sampleBracketLog.length + 1) 0 sampleBracketLog ∧
    (sampleBracketParsed.isNewFormat = false ∧
      ∃ js data tail,
        sampleBracketParsed.fullMatch = legacyMarker ++ js ++ [']'] ∧
        jsonParse (normalizeLegacyJson js) = some data ∧
        findJsonEnd (js ++ tail) = some js.length ∧
        tail.head? = some ']' ∧
        sampleBracketParsed =
          tagOfJson sampleBracketParsed.fullMatch sampleBracketParsed.index false none data) :=
  ⟨by decide,
   legacy_extraction_correct.2.1 (sampleBracketLog.length + 1) 0 sampleBracketLog
     sampleBracketParsed (by decide)⟩


/- ===== C1: parse output structure ===== -/

theorem legacyScanAux_index_ge :
    ∀ (fuel off : Nat) (cs : List Char) (t : IIGTag),
      t ∈ legacyScanAux fuel off cs → off ≤ t.index := by
  intro fuel
  induction fuel with
  | zero => intro off cs t ht; simp [legacyScanAux] at ht
  | succ f ih =>
    intro off cs t ht
    cases cs with
    | nil => simp [legacyScanAux] at ht
    | cons c rest =>
      simp only [legacyScanAux] at ht
      split at ht
      · split at ht
        · have := ih _ _ _ ht; omega
        · split at ht
          · split at ht
            · rcases List.mem_cons.1 ht with rfl | hmem
              · simp [tagOfJson]
              · have := ih _ _ _ hmem; omega
            · have := ih _ _ _ ht; omega
          · have := ih _ _ _ ht; omega
      · have := ih _ _ _ ht; omega

theorem legacyScanAux_sorted :
    ∀ (fuel off : Nat) (cs : List Char),
      List.Chain' (fun a b => a.index < b.index) (legacyScanAux fuel off cs) := by
  intro fuel
  induction fuel with
  | zero => intro off cs; simp [legacyScanAux]
  | succ f ih =>
    intro off cs
    cases cs with
    | nil => simp [legacyScanAux]
    | cons c rest =>
      simp only [legacyScanAux]
      split
      · split
        · exact ih _ _
        · split
          · split
            · refine List.chain'_cons'.2 ⟨?_, ih _ _⟩
              intro y hy
              have := legacyScanAux_index_ge f _ _ y (List.mem_of_mem_head? hy)
              simp only [tagOfJson]
              omega
            · exact ih _ _
          · exact ih _ _
      · exact ih _ _

theorem attrScanAux_index_ge :
    ∀ (fe : List Char → Bool) (ce fa : Bool) (fuel off : Nat) (cs : List Char) (t : IIGTag),
      t ∈ attrScanAux fe ce fa fuel off cs → off ≤ t.index := by
  intro fe ce fa fuel
  induction fuel with
  | zero => intro off cs t ht; simp [attrScanAux] at ht
  | succ f ih =>
    intro off cs t ht
    cases cs with
    | nil => simp [attrScanAux] at ht
    | cons c rest =>
      simp only [attrScanAux] at ht
      split at ht
      · split at ht
        · split at ht
          · rcases List.mem_cons.1 ht with rfl | hmem
            · simp [tagOfJson]
            · have := ih _ _ _ hmem; omega
          · have := ih _ _ _ ht; omega
        · have := ih _ _ _ ht; omega
      · have := ih _ _ _ ht; omega

theorem attrScanAux_sorted :
    ∀ (fe : List Char → Bool) (ce fa : Bool) (fuel off : Nat) (cs : List Char),
      List.Chain' (fun a b => a.index < b.index) (attrScanAux fe ce fa fuel off cs) := by
  intro fe ce fa fuel
  induction fuel with
  | zero => intro off cs; simp [attrScanAux]
  | succ f ih =>
    intro off cs
    cases cs with
    | nil => simp [attrScanAux]
    | cons c rest =>
      simp only [attrScanAux]
      split
      · rename_i flen instr heq
        split
        · split
          · refine List.chain'_cons'.2 ⟨?_, ih _ _⟩
            intro y hy
            have hge := attrScanAux_index_ge fe ce fa f _ _ y (List.mem_of_mem_head? hy)
            have hpos := imgTagMatchAt_pos heq
            simp only [tagOfJson]
            simp only at hpos
            omega
          · exact ih _ _
        · exact ih _ _
      · exact ih _ _

def sampleMixedLog : List Char :=
  ("[IMG:GEN:\x7b\"prompt\":\"legacy one\"\x7d] mid " ++
   "<img data-iig-instruction=\x27\x7b\"prompt\":\"attr one\"\x7d\x27 src=\"[IMG:GEN]\"> end").toList

set_option maxRecDepth 8000 in
/-- C1 counterexample: on a message whose legacy tag (document offset 0)
precedes its attribute tag (document offset 38), `parseImageTags` returns
the attribute instruction first — the result index list is `[38, 0]`, not
in document order, because the two grammar passes run sequentially and
their outputs are concatenated. -/
theorem parse_not_document_order :
    (parseImageTags (fun _ => false) true false sampleMixedLog).map (fun t => t.index) =
      [38, 0] ∧ ¬ (38 : Nat) ≤ 0 := ⟨by decide, by decide⟩

def sampleNMLog : List Char :=
  ("<img data-iig-instruction=\x27\x7b\"prompt\": \x7d\x27 src=\"[IMG:GEN]\"> A " ++
   "[IMG:GEN:\x7b\"oops\" ] B [IMG:GEN:\x7b\"prompt\":\"a castle\"\x7d] C " ++
   "<img data-iig-instruction=\"\x7b\x27style\x27:\x27anime\x27,\x27prompt\x27:\x27red-haired girl\x27\x7d\" src=\"[IMG:GEN]\"> D").toList

def sampleNMAttr : IIGTag :=
  { fullMatch :=
      ("<img data-iig-instruction=\"\x7b\x27style\x27:\x27anime\x27,\x27prompt\x27:\x27red-haired girl\x27\x7d\" src=\"[IMG:GEN]\">").toList,
    index := 115,
    style := Json.str ("anime".toList),
    prompt := Json.str ("red-haired girl".toList),
    aspectRatio := Json.null,
    imageSize := Json.null,
    quality := Json.null,
    isNewFormat := true,
    existingSrc := none }

def sampleNMLegacy : IIGTag :=
  { fullMatch := ("[IMG:GEN:\x7b\"prompt\":\"a castle\"\x7d]").toList,
    index := 81,
    style := Json.str [],
    prompt := Json.str ("a castle".toList),
    aspectRatio := Json.null,
    imageSize := Json.null,
    quality := Json.null,
    isNewFormat := false,
    existingSrc := none }



/- ===== C6: frame property of the Done rewrite ===== -/

theorem jsExpandRepl_no_dollar (matched before after : List Char)
    (groups : List (List Char)) :
    ∀ repl, (∀ c ∈ repl, c ≠ '$') →
      jsExpandRepl matched before after groups repl = repl := by
  intro repl
  induction repl with
  | nil => intro _; rfl
  | cons c cs ih =>
    intro h
    have hc : ¬ c = '$' := h c (by simp)
    rw [jsExpandRepl.eq_def]
    simp only [if_neg hc]
    rw [ih (fun x hx => h x (by simp [hx]))]

def sampleTrapTag : List Char :=
  "<img data-iig-instruction=\x27\x7b\"prompt\":\"x\"\x7d\x27 title=\"src=\x27[IMG:GEN]\x27\" src=\"[IMG:GEN]\">".toList

def sampleTrapLog : List Char := "See: ".toList ++ sampleTrapTag ++ "!".toList

def sampleTrapOnlySrcLog : List Char :=
  "See: ".toList ++
  "<img data-iig-instruction=\x27\x7b\"prompt\":\"x\"\x7d\x27 title=\"src=\x27[IMG:GEN]\x27\" src=\"/user/images/Seraphina/iig_2025.png\">".toList ++
  "!".toList

set_option maxRecDepth 8000 in
/-- C6 counterexample: the rewrite regex replaces the FIRST
`src ['"] value ['"]` pattern in the tag text, which need not be the real
src attribute.  On a parsed instruction whose `title` attribute contains
`src=\x27[IMG:GEN]\x27`, the Done rewrite alters the title bytes, leaves the
real resource slot holding the pending marker, and differs from the log in
which only the resource value was replaced — so "only the resource value
changes, every other byte identical" is false. -/
theorem done_rewrite_touches_other_bytes :
    parseImageTags (fun _ => false) true false sampleTrapLog =
      [{ fullMatch := sampleTrapTag, index := 5, style := Json.str [],
         prompt := Json.str ("x".toList), aspectRatio := Json.null,
         imageSize := Json.null, quality := Json.null, isNewFormat := true,
         existingSrc := none }] ∧
    containsSub ("src=\"[IMG:GEN]\"".toList)
      (applyDoneNew sampleTrapLog sampleTrapTag samplePath) = true ∧
    applyDoneNew sampleTrapLog sampleTrapTag samplePath ≠ sampleTrapOnlySrcLog :=
  ⟨by decide, by decide, by decide⟩

set_option maxRecDepth 8000 in
/-- C6 (amended): the Done rewrite replaces exactly the first
`src`-quote pattern region inside the first occurrence of the tag text —
every byte outside that region, in particular everything before and after
the tag occurrence, is identical before and after ($-free tag text and
store path; the legacy rewrite swaps the whole tag for the completion
marker, all other bytes identical).  Only when that first pattern region is
the real src attribute (as in Scenario A, where the instruction attribute
holds no src pattern) is the claim's "only the resource value changes"
recovered. -/
theorem done_rewrite_frame :
    (∀ (mes tag path : List Char) (m n len : Nat) (q : Char),
      subFindFrom tag mes 0 = some m →
      srcRWFind 0 tag = some (n, len, q) →
      (∀ c ∈ tag, c ≠ '$') →
      (∀ c ∈ path, c ≠ '$') →
      applyDoneNew mes tag path =
        mes.take m ++
          (tag.take n ++ ("src=\"".toList ++ path ++ [dquote]) ++ tag.drop (n + len)) ++
          mes.drop (m + tag.length)) ∧
    (∀ (mes tag path : List Char) (m : Nat),
      subFindFrom tag mes 0 = some m →
      (∀ c ∈ path, c ≠ '$') →
      applyDoneLegacy mes tag path =
        mes.take m ++ ("[IMG:✓:".toList ++ path ++ "]".toList) ++
          mes.drop (m + tag.length)) := by
  constructor
  · intro mes tag path m n len q h1 h2 htag hpath
    have htempl : ∀ c ∈ srcReplaceTemplate path, c ≠ '$' := by
      intro c hc
      simp only [srcReplaceTemplate, List.append_assoc, List.mem_append,
        List.mem_singleton] at hc
      rcases hc with hc | hc | hc
      · exact (by decide : ∀ c ∈ ("src=\"".toList), c ≠ '$') c hc
      · exact hpath c hc
      · subst hc; decide
    have hrepl : srcRegexReplaceFirst tag (srcReplaceTemplate path) =
        tag.take n ++ ("src=\"".toList ++ path ++ [dquote]) ++ tag.drop (n + len) := by
      simp only [srcRegexReplaceFirst, h2]
      rw [jsExpandRepl_no_dollar _ _ _ _ _ htempl]
      rfl
    have hnew : ∀ c ∈ tag.take n ++ ("src=\"".toList ++ path ++ [dquote]) ++
        tag.drop (n + len), c ≠ '$' := by
      intro c hc
      simp only [List.append_assoc, List.mem_append, List.mem_singleton] at hc
      rcases hc with hc | hc | hc | hc | hc
      · exact htag c (List.mem_of_mem_take hc)
      · exact (by decide : ∀ c ∈ ("src=\"".toList), c ≠ '$') c hc
      · exact hpath c hc
      · subst hc; decide
      · exact htag c (List.mem_of_mem_drop hc)
    unfold applyDoneNew
    rw [hrepl]
    simp only [replaceFirstStr, h1]
    rw [jsExpandRepl_no_dollar _ _ _ _ _ hnew]
  · intro mes tag path m h1 hpath
    have hrepl : ∀ c ∈ ("[IMG:✓:".toList ++ path ++ "]".toList), c ≠ '$' := by
      intro c hc
      simp only [List.append_assoc, List.mem_append] at hc
      rcases hc with hc | hc | hc
      · exact (by decide : ∀ c ∈ ("[IMG:✓:".toList), c ≠ '$') c hc
      · exact hpath c hc
      · exact (by decide : ∀ c ∈ ("]".toList), c ≠ '$') c hc
    unfold applyDoneLegacy
    simp only [replaceFirstStr, h1]
    rw [jsExpandRepl_no_dollar _ _ _ _ _ hrepl]

set_option maxRecDepth 8000 in
/-- C6 witness: the Scenario A rewrite, where the first src pattern is the
real src attribute (offsets 73-88 of the tag, occurrence at offset 7 of the
log). -/
theorem done_rewrite_frame_witness :
    subFindFrom sampleTagA sampleLogA 0 = some 7 ∧
    srcRWFind 0 sampleTagA = some (73, 15, dquote) ∧
    (∀ c ∈ sampleTagA, c ≠ '$') ∧
    (∀ c ∈ samplePath, c ≠ '$') ∧
    applyDoneNew sampleLogA sampleTagA samplePath =
      sampleLogA.take 7 ++
        (sampleTagA.take 73 ++ ("src=\"".toList ++ samplePath ++ [dquote]) ++
          sampleTagA.drop (73 + 15)) ++
        sampleLogA.drop (7 + sampleTagA.length) :=
  ⟨by decide, by decide, by decide, by decide,
   done_rewrite_frame.1 sampleLogA sampleTagA samplePath 7 73 15 dquote
     (by decide) (by decide) (by decide) (by decide)⟩

/- ===== C7: error sentinels are not re-triggered ===== -/

def sampleErrMsg : List Char :=
  "API Error (500): upstream exploded in a very verbose way".toList

def sampleErrParsedTag : IIGTag :=
  { fullMatch :=
      ("<img data-iig-instruction=\x27\x7b\"style\":\"anime\",\"prompt\":\"red-haired girl\"\x7d\x27 src=\"" ++
       "/scripts/extensions/third-party/sillyimages/error.svg\">").toList,
    index := 7,
    style := Json.str ("anime".toList),
    prompt := Json.str ("red-haired girl".toList),
    aspectRatio := Json.null,
    imageSize := Json.null,
    quality := Json.null,
    isNewFormat := true,
    existingSrc := some ERROR_IMAGE_PATH }

set_option maxRecDepth 8000 in
/-- C7: after an Error outcome the written sentinel differs from the pending
marker — the fixed error path contains `error.svg` and no `[IMG:GEN]`
marker, and the legacy `[IMG:ERROR:` sentinel never begins with the legacy
pending marker for any error message — and a subsequent normal-mode parse
of the rewritten log returns nothing, while `forceAll` (explicit
regenerate) re-dispatches the attribute instruction. -/
theorem error_sentinel_not_retriggered :
    containsSub ("[IMG:GEN]".toList) ERROR_IMAGE_PATH = false ∧
    containsSub ("error.svg".toList) ERROR_IMAGE_PATH = true ∧
    (∀ errMsg : List Char,
      legacyMarker.isPrefixOf
        ("[IMG:ERROR:".toList ++ errMsg.take 50 ++ "]".toList) = false) ∧
    parseImageTags (fun _ => false) true false (applyErrorNew sampleLogA sampleTagA) = [] ∧
    parseImageTags (fun _ => false) true true (applyErrorNew sampleLogA sampleTagA) =
      [sampleErrParsedTag] ∧
    parseImageTags (fun _ => false) true false
      (applyErrorLegacy sampleLogLegacy sampleLegacyTag sampleErrMsg) = [] :=
  ⟨by decide, by decide, fun _ => rfl, by decide, by decide, by decide⟩


/- ===== C1 (continued): parsing arbitrary block interleavings ===== -/

/-- A well-formed attribute tag used in the interleaving theorem. -/
def gaText : List Char :=
  "<img data-iig-instruction=\x27\x7b\"prompt\":\"hi\"\x7d\x27 src=\"[IMG:GEN]\">".toList

/-- A malformed attribute tag (regex-valid, JSON-invalid). -/
def baText : List Char :=
  "<img data-iig-instruction=\x27\x7b\"bad\": \x7d\x27 src=\"[IMG:GEN]\">".toList

/-- A well-formed legacy tag. -/
def glText : List Char := "[IMG:GEN:\x7b\"prompt\":\"ok\"\x7d]".toList

/-- A malformed legacy tag (balanced braces, JSON-invalid). -/
def blText : List Char := "[IMG:GEN:\x7b\"oops\": \x7d]".toList

/-- One block of a document: free prose or one of the four tag shapes. -/
inductive DocBlock where
  | prose (p : List Char)
  | goodAttr
  | badAttr
  | goodLegacy
  | badLegacy
deriving DecidableEq, Repr

def blockText : DocBlock → List Char
  | .prose p => p
  | .goodAttr => gaText
  | .badAttr => baText
  | .goodLegacy => glText
  | .badLegacy => blText

def renderDoc : List DocBlock → List Char
  | [] => []
  | b :: bs => blockText b ++ renderDoc bs

/-- Prose blocks may not contain the characters that can open a tag. -/
def blockSafe : DocBlock → Bool
  | .prose p => p.all (fun c => c ≠ '<' && c ≠ '[')
  | _ => true

def docSafe (doc : List DocBlock) : Prop := ∀ b ∈ doc, blockSafe b = true

theorem blockSafe_prose_lt {p : List Char} (h : blockSafe (DocBlock.prose p) = true) :
    ∀ c ∈ p, c ≠ '<' := by
  intro c hc
  have := (List.all_eq_true.1 h) c hc
  simp only [Bool.and_eq_true, decide_eq_true_eq] at this
  exact this.1

theorem blockSafe_prose_lb {p : List Char} (h : blockSafe (DocBlock.prose p) = true) :
    ∀ c ∈ p, c ≠ '[' := by
  intro c hc
  have := (List.all_eq_true.1 h) c hc
  simp only [Bool.and_eq_true, decide_eq_true_eq] at this
  exact this.2

def gaParsed (off : Nat) : IIGTag :=
  { fullMatch := gaText, index := off, style := Json.str [],
    prompt := Json.str ("hi".toList), aspectRatio := Json.null,
    imageSize := Json.null, quality := Json.null, isNewFormat := true,
    existingSrc := none }

def glParsed (off : Nat) : IIGTag :=
  { fullMatch := glText, index := off, style := Json.str [],
    prompt := Json.str ("ok".toList), aspectRatio := Json.null,
    imageSize := Json.null, quality := Json.null, isNewFormat := false,
    existingSrc := none }

/-- The instructions the attribute pass returns on a rendered document. -/
def expectedAttr : List DocBlock → Nat → List IIGTag
  | [], _ => []
  | b :: bs, off =>
    (match b with
     | .goodAttr => [gaParsed off]
     | _ => []) ++ expectedAttr bs (off + (blockText b).length)

/-- The instructions the legacy pass returns on a rendered document. -/
def expectedLegacy : List DocBlock → Nat → List IIGTag
  | [], _ => []
  | b :: bs, off =>
    (match b with
     | .goodLegacy => [glParsed off]
     | _ => []) ++ expectedLegacy bs (off + (blockText b).length)

/-- Fuel the attribute pass consumes on one block (one unit per matched tag,
one per skipped character). -/
def attrFuel : DocBlock → Nat
  | .prose p => p.length
  | .goodAttr => 1
  | .badAttr => 1
  | .goodLegacy => glText.length
  | .badLegacy => blText.length

def legacyFuel : DocBlock → Nat
  | .prose p => p.length
  | .goodAttr => gaText.length
  | .badAttr => baText.length
  | .goodLegacy => 1
  | .badLegacy => 1

def attrFuelDoc : List DocBlock → Nat
  | [] => 0
  | b :: bs => attrFuel b + attrFuelDoc bs

def legacyFuelDoc : List DocBlock → Nat
  | [] => 0
  | b :: bs => legacyFuel b + legacyFuelDoc bs

theorem imgTagMatchAt_head_ne {c : Char} (l : List Char) (h : c ≠ '<') :
    imgTagMatchAt (c :: l) = none := by
  simp [imgTagMatchAt, h]

theorem attrScanAux_nil (fe : List Char → Bool) (ce fa : Bool) (fuel off : Nat) :
    attrScanAux fe ce fa fuel off [] = [] := by
  cases fuel <;> rfl

theorem legacyScanAux_nil (fuel off : Nat) : legacyScanAux fuel off [] = [] := by
  cases fuel <;> rfl

theorem attrScanAux_skip :
    ∀ (p : List Char), (∀ c ∈ p, c ≠ '<') →
      ∀ (fe : List Char → Bool) (ce fa : Bool) (fuel off : Nat) (rest : List Char),
        attrScanAux fe ce fa (fuel + p.length) off (p ++ rest) =
          attrScanAux fe ce fa fuel (off + p.length) rest := by
  intro p
  induction p with
  | nil => intro _ fe ce fa fuel off rest; simp
  | cons c p ih =>
    intro h fe ce fa fuel off rest
    have hc : c ≠ '<' := (h c (by simp))
    have hstep : fuel + (c :: p).length = (fuel + p.length) + 1 := by
      simp [List.length_cons]; omega
    rw [hstep]
    show attrScanAux fe ce fa ((fuel + p.length) + 1) off (c :: (p ++ rest)) = _
    simp only [attrScanAux, imgTagMatchAt_head_ne _ hc]
    rw [ih (fun x hx => h x (by simp [hx])) fe ce fa fuel (off + 1) rest]
    congr 1
    simp [List.length_cons]
    omega

theorem legacyMarker_head_ne {c : Char} (l : List Char) (h : c ≠ '[') :
    legacyMarker.isPrefixOf (c :: l) = false := by
  have : legacyMarker = '[' :: ("IMG:GEN:".toList) := rfl
  rw [this]
  simp [List.isPrefixOf]
  intro hc
  exact absurd hc.symm h

theorem legacyScanAux_skip :
    ∀ (p : List Char), (∀ c ∈ p, c ≠ '[') →
      ∀ (fuel off : Nat) (rest : List Char),
        legacyScanAux (fuel + p.length) off (p ++ rest) =
          legacyScanAux fuel (off + p.length) rest := by
  intro p
  induction p with
  | nil => intro _ fuel off rest; simp
  | cons c p ih =>
    intro h fuel off rest
    have hc : c ≠ '[' := (h c (by simp))
    have hstep : fuel + (c :: p).length = (fuel + p.length) + 1 := by
      simp [List.length_cons]; omega
    rw [hstep]
    show legacyScanAux ((fuel + p.length) + 1) off (c :: (p ++ rest)) = _
    simp only [legacyScanAux, legacyMarker_head_ne _ hc, Bool.false_eq_true, if_false]
    rw [ih (fun x hx => h x (by simp [hx])) fuel (off + 1) rest]
    congr 1
    simp [List.length_cons]
    omega


theorem legacyScanAux_gl (fuel off : Nat) (rest : List Char) :
    legacyScanAux (fuel + 1) off (glText ++ rest) =
      glParsed off :: legacyScanAux fuel (off + glText.length) rest := by
  simp [legacyScanAux, glText, glParsed, legacyMarker, findJsonEnd, findJsonEndAux,
    jsonParse, normalizeLegacyJson, parseJsonVal, parseJsonObjBody, parseJsonMembers,
    parseJsonStringBody, parseJsonStringBodyAux, parseJsonNum, skipWs, jsonWs,
    tagOfJson, lookupField, jsOr, truthy, dquote, squote, lbrace, rbrace, bslash,
    digitRunLen, hexDigitVal, List.isPrefixOf, List.cons_append]

theorem legacyScanAux_bl (fuel off : Nat) (rest : List Char) :
    legacyScanAux (fuel + 1) off (blText ++ rest) =
      legacyScanAux fuel (off + blText.length) rest := by
  simp [legacyScanAux, blText, legacyMarker, findJsonEnd, findJsonEndAux,
    jsonParse, normalizeLegacyJson, parseJsonVal, parseJsonObjBody, parseJsonMembers,
    parseJsonStringBody, parseJsonStringBodyAux, parseJsonNum, skipWs, jsonWs,
    tagOfJson, lookupField, jsOr, truthy, dquote, squote, lbrace, rbrace, bslash,
    digitRunLen, hexDigitVal, List.isPrefixOf, List.cons_append]

theorem legacyScanAux_ga_skip (fuel off : Nat) (rest : List Char) :
    legacyScanAux (fuel + gaText.length) off (gaText ++ rest) =
      legacyScanAux fuel (off + gaText.length) rest := by
  simp [legacyScanAux, gaText, legacyMarker, findJsonEnd, findJsonEndAux,
    dquote, squote, lbrace, rbrace, bslash, List.isPrefixOf, List.cons_append]

theorem legacyScanAux_ba_skip (fuel off : Nat) (rest : List Char) :
    legacyScanAux (fuel + baText.length) off (baText ++ rest) =
      legacyScanAux fuel (off + baText.length) rest := by
  simp [legacyScanAux, baText, legacyMarker, findJsonEnd, findJsonEndAux,
    dquote, squote, lbrace, rbrace, bslash, List.isPrefixOf, List.cons_append]

set_option maxHeartbeats 2000000 in
theorem attrScanAux_ga (fe : List Char → Bool) (fuel off : Nat) (rest : List Char) :
    attrScanAux fe true false (fuel + 1) off (gaText ++ rest) =
      gaParsed off :: attrScanAux fe true false fuel (off + gaText.length) rest := by
  simp [attrScanAux, gaText, gaParsed, imgTagMatchAt, matchCI, jsSpace, attrNameChars,
    attrTailParse, eqQuoteParse, valueAttempt, charPositions, firstSome, List.range_succ,
    List.takeWhile, srcAttrFind, indexOfChar, srcNeedsGeneration, srcHasPath,
    containsSub, subFindFrom, List.isPrefixOf, normalizeInstructionJson,
    replaceAllSub, replaceAllSubAux, jsonParse, parseJsonVal, parseJsonObjBody,
    parseJsonMembers, parseJsonStringBody, parseJsonStringBodyAux, parseJsonNum,
    skipWs, jsonWs, digitRunLen, hexDigitVal, tagOfJson, lookupField, jsOr, truthy,
    dquote, squote, lbrace, rbrace, bslash, List.cons_append]

set_option maxHeartbeats 2000000 in
theorem attrScanAux_ba (fe : List Char → Bool) (fuel off : Nat) (rest : List Char) :
    attrScanAux fe true false (fuel + 1) off (baText ++ rest) =
      attrScanAux fe true false fuel (off + baText.length) rest := by
  simp [attrScanAux, baText, imgTagMatchAt, matchCI, jsSpace, attrNameChars,
    attrTailParse, eqQuoteParse, valueAttempt, charPositions, firstSome, List.range_succ,
    List.takeWhile, srcAttrFind, indexOfChar, srcNeedsGeneration, srcHasPath,
    containsSub, subFindFrom, List.isPrefixOf, normalizeInstructionJson,
    replaceAllSub, replaceAllSubAux, jsonParse, parseJsonVal, parseJsonObjBody,
    parseJsonMembers, parseJsonStringBody, parseJsonStringBodyAux, parseJsonNum,
    skipWs, jsonWs, digitRunLen, hexDigitVal, tagOfJson, lookupField, jsOr, truthy,
    dquote, squote, lbrace, rbrace, bslash, List.cons_append]

theorem attrScanAux_doc :
    ∀ (doc : List DocBlock), docSafe doc →
      ∀ (fe : List Char → Bool) (fuel off : Nat) (rest : List Char),
        attrScanAux fe true false (fuel + attrFuelDoc doc) off (renderDoc doc ++ rest) =
          expectedAttr doc off ++
            attrScanAux fe true false fuel (off + (renderDoc doc).length) rest := by
  intro doc
  induction doc with
  | nil =>
    intro _ fe fuel off rest
    simp [renderDoc, attrFuelDoc, expectedAttr]
  | cons b bs ih =>
    intro hsafe fe fuel off rest
    have hsafe2 : docSafe bs := fun x hx => hsafe x (by simp [hx])
    have harith : fuel + attrFuelDoc (b :: bs) = (fuel + attrFuelDoc bs) + attrFuel b := by
      simp only [attrFuelDoc]; omega
    have hr : renderDoc (b :: bs) ++ rest = blockText b ++ (renderDoc bs ++ rest) := by
      simp [renderDoc]
    rw [harith, hr]
    have hlen : off + (renderDoc (b :: bs)).length =
        (off + (blockText b).length) + (renderDoc bs).length := by
      simp [renderDoc]; omega
    cases b with
    | prose p =>
      have hp := blockSafe_prose_lt (hsafe (DocBlock.prose p) (List.mem_cons_self _ _))
      rw [show attrFuel (DocBlock.prose p) = p.length from rfl,
        show blockText (DocBlock.prose p) = p from rfl] at *
      rw [attrScanAux_skip p hp, ih hsafe2 fe fuel (off + p.length) rest, hlen]
      simp [expectedAttr, blockText]
    | goodAttr =>
      rw [show attrFuel DocBlock.goodAttr = 1 from rfl,
        show blockText DocBlock.goodAttr = gaText from rfl] at *
      rw [attrScanAux_ga fe (fuel + attrFuelDoc bs) off (renderDoc bs ++ rest),
        ih hsafe2 fe fuel (off + gaText.length) rest, hlen]
      simp [expectedAttr, blockText]
    | badAttr =>
      rw [show attrFuel DocBlock.badAttr = 1 from rfl,
        show blockText DocBlock.badAttr = baText from rfl] at *
      rw [attrScanAux_ba fe (fuel + attrFuelDoc bs) off (renderDoc bs ++ rest),
        ih hsafe2 fe fuel (off + baText.length) rest, hlen]
      simp [expectedAttr, blockText]
    | goodLegacy =>
      have hp : ∀ c ∈ glText, c ≠ '<' := by decide
      rw [show attrFuel DocBlock.goodLegacy = glText.length from rfl,
        show blockText DocBlock.goodLegacy = glText from rfl] at *
      rw [attrScanAux_skip glText hp, ih hsafe2 fe fuel (off + glText.length) rest, hlen]
      simp [expectedAttr, blockText]
    | badLegacy =>
      have hp : ∀ c ∈ blText, c ≠ '<' := by decide
      rw [show attrFuel DocBlock.badLegacy = blText.length from rfl,
        show blockText DocBlock.badLegacy = blText from rfl] at *
      rw [attrScanAux_skip blText hp, ih hsafe2 fe fuel (off + blText.length) rest, hlen]
      simp [expectedAttr, blockText]

theorem legacyScanAux_doc :
    ∀ (doc : List DocBlock), docSafe doc →
      ∀ (fuel off : Nat) (rest : List Char),
        legacyScanAux (fuel + legacyFuelDoc doc) off (renderDoc doc ++ rest) =
          expectedLegacy doc off ++
            legacyScanAux fuel (off + (renderDoc doc).length) rest := by
  intro doc
  induction doc with
  | nil =>
    intro _ fuel off rest
    simp [renderDoc, legacyFuelDoc, expectedLegacy]
  | cons b bs ih =>
    intro hsafe fuel off rest
    have hsafe2 : docSafe bs := fun x hx => hsafe x (by simp [hx])
    have harith : fuel + legacyFuelDoc (b :: bs) =
        (fuel + legacyFuelDoc bs) + legacyFuel b := by
      simp only [legacyFuelDoc]; omega
    have hr : renderDoc (b :: bs) ++ rest = blockText b ++ (renderDoc bs ++ rest) := by
      simp [renderDoc]
    rw [harith, hr]
    have hlen : off + (renderDoc (b :: bs)).length =
        (off + (blockText b).length) + (renderDoc bs).length := by
      simp [renderDoc]; omega
    cases b with
    | prose p =>
      have hp := blockSafe_prose_lb (hsafe (DocBlock.prose p) (List.mem_cons_self _ _))
      rw [show legacyFuel (DocBlock.prose p) = p.length from rfl,
        show blockText (DocBlock.prose p) = p from rfl] at *
      rw [legacyScanAux_skip p hp, ih hsafe2 fuel (off + p.length) rest, hlen]
      simp [expectedLegacy, blockText]
    | goodAttr =>
      rw [show legacyFuel DocBlock.goodAttr = gaText.length from rfl,
        show blockText DocBlock.goodAttr = gaText from rfl] at *
      rw [legacyScanAux_ga_skip (fuel + legacyFuelDoc bs) off (renderDoc bs ++ rest),
        ih hsafe2 fuel (off + gaText.length) rest, hlen]
      simp [expectedLegacy, blockText]
    | badAttr =>
      rw [show legacyFuel DocBlock.badAttr = baText.length from rfl,
        show blockText DocBlock.badAttr = baText from rfl] at *
      rw [legacyScanAux_ba_skip (fuel + legacyFuelDoc bs) off (renderDoc bs ++ rest),
        ih hsafe2 fuel (off + baText.length) rest, hlen]
      simp [expectedLegacy, blockText]
    | goodLegacy =>
      rw [show legacyFuel DocBlock.goodLegacy = 1 from rfl,
        show blockText DocBlock.goodLegacy = glText from rfl] at *
      rw [legacyScanAux_gl (fuel + legacyFuelDoc bs) off (renderDoc bs ++ rest),
        ih hsafe2 fuel (off + glText.length) rest, hlen]
      simp [expectedLegacy, blockText]
    | badLegacy =>
      rw [show legacyFuel DocBlock.badLegacy = 1 from rfl,
        show blockText DocBlock.badLegacy = blText from rfl] at *
      rw [legacyScanAux_bl (fuel + legacyFuelDoc bs) off (renderDoc bs ++ rest),
        ih hsafe2 fuel (off + blText.length) rest, hlen]
      simp [expectedLegacy, blockText]

theorem attrFuelDoc_le (doc : List DocBlock) :
    attrFuelDoc doc ≤ (renderDoc doc).length := by
  induction doc with
  | nil => simp [attrFuelDoc, renderDoc]
  | cons b bs ih =>
    have hb : attrFuel b ≤ (blockText b).length := by
      cases b with
      | prose p => exact Nat.le_refl _
      | goodAttr => decide
      | badAttr => decide
      | goodLegacy => exact Nat.le_refl _
      | badLegacy => exact Nat.le_refl _
    simp only [attrFuelDoc, renderDoc, List.length_append]
    omega

theorem legacyFuelDoc_le (doc : List DocBlock) :
    legacyFuelDoc doc ≤ (renderDoc doc).length := by
  induction doc with
  | nil => simp [legacyFuelDoc, renderDoc]
  | cons b bs ih =>
    have hb : legacyFuel b ≤ (blockText b).length := by
      cases b with
      | prose p => exact Nat.le_refl _
      | goodAttr => exact Nat.le_refl _
      | badAttr => exact Nat.le_refl _
      | goodLegacy => decide
      | badLegacy => decide
    simp only [legacyFuelDoc, renderDoc, List.length_append]
    omega

theorem parseImageTags_blocks (doc : List DocBlock) (hsafe : docSafe doc)
    (fe : List Char → Bool) :
    parseImageTags fe true false (renderDoc doc) =
      expectedAttr doc 0 ++ expectedLegacy doc 0 := by
  have ha := attrScanAux_doc doc hsafe fe
    ((renderDoc doc).length + 1 - attrFuelDoc doc) 0 []
  have hl := legacyScanAux_doc doc hsafe
    ((renderDoc doc).length + 1 - legacyFuelDoc doc) 0 []
  rw [List.append_nil] at ha hl
  have hfa : (renderDoc doc).length + 1 - attrFuelDoc doc + attrFuelDoc doc =
      (renderDoc doc).length + 1 := by
    have := attrFuelDoc_le doc; omega
  have hfl : (renderDoc doc).length + 1 - legacyFuelDoc doc + legacyFuelDoc doc =
      (renderDoc doc).length + 1 := by
    have := legacyFuelDoc_le doc; omega
  rw [hfa] at ha
  rw [hfl] at hl
  rw [attrScanAux_nil, List.append_nil] at ha
  rw [legacyScanAux_nil, List.append_nil] at hl
  simp only [parseImageTags, attrScan, legacyScan, ha, hl]

instance (doc : List DocBlock) : Decidable (docSafe doc) :=
  inferInstanceAs (Decidable (∀ b ∈ doc, blockSafe b = true))

def sampleBlockDoc : List DocBlock :=
  [DocBlock.prose ("Hello ".toList), DocBlock.goodAttr, DocBlock.badLegacy,
   DocBlock.prose (" middle ".toList), DocBlock.goodLegacy, DocBlock.badAttr,
   DocBlock.prose (" end".toList)]

set_option maxRecDepth 8000 in
/-- C1 (amended): `parseImageTags` is total (malformed tags are skipped,
never raised) and its output is grouped by grammar, not in global document
order: the attribute pass runs to completion and pushes all its tags, then
the legacy pass pushes all of its tags, each pass in strictly increasing
document position.  Concretely, for EVERY document built from prose blocks
(free of the tag-opening characters) interleaved with any number of
well-formed and malformed tags of either grammar, the parse returns exactly
the well-formed attribute instructions in document order followed by the
well-formed legacy instructions in document order, fields unchanged except
quote normalization; the final conjunct checks a mixed sample with one
well-formed and one malformed tag of each grammar. -/
theorem parse_grouped_by_grammar :
    (∀ (fe : List Char → Bool) (ce fa : Bool) (text : List Char),
      parseImageTags fe ce fa text = attrScan fe ce fa 0 text ++ legacyScan 0 text) ∧
    (∀ (fe : List Char → Bool) (ce fa : Bool) (fuel off : Nat) (cs : List Char),
      List.Chain' (fun a b => a.index < b.index) (attrScanAux fe ce fa fuel off cs)) ∧
    (∀ (fuel off : Nat) (cs : List Char),
      List.Chain' (fun a b => a.index < b.index) (legacyScanAux fuel off cs)) ∧
    (∀ (doc : List DocBlock), docSafe doc → ∀ (fe : List Char → Bool),
      parseImageTags fe true false (renderDoc doc) =
        expectedAttr doc 0 ++ expectedLegacy doc 0) ∧
    parseImageTags (fun _ => false) true false sampleNMLog = [sampleNMAttr, sampleNMLegacy] :=
  ⟨fun _ _ _ _ => rfl, attrScanAux_sorted, legacyScanAux_sorted,
   fun doc h fe => parseImageTags_blocks doc h fe, by decide⟩

set_option maxRecDepth 8000 in
/-- C1 witness: the block-interleaving conjunct applied to a concrete
seven-block document (prose, good attribute tag, bad legacy tag, prose,
good legacy tag, bad attribute tag, prose). -/
theorem parse_grouped_by_grammar_witness :
    docSafe sampleBlockDoc ∧
      parseImageTags (fun _ => false) true false (renderDoc sampleBlockDoc) =
        expectedAttr sampleBlockDoc 0 ++ expectedLegacy sampleBlockDoc 0 :=
  ⟨by decide, parse_grouped_by_grammar.2.2.2.1 sampleBlockDoc (by decide)
    (fun _ => false)⟩

end IIG
